import Mathlib

/-!
Verification of the Text2SQL evaluation core of this repository.

The development shallowly embeds, in Lean, the functions of
`scripts/sql_utils.py` (`_best_table_match`, `repair_pred_table_names`,
`fill_gold_sql`, `compare_results`) and of `database/db_manager.py`
(`_split_ident`, `_stem`, `_normalize_tokens`, `_rank_tables_for_question`,
`_select_tables`), together with the parts of the Python standard library
they rely on (`difflib.SequenceMatcher.ratio`, `str.replace`, the two
regular expressions `_QUOTED` and `_TABLE_POS`, and `re.sub` scanning).

Modelling conventions:
* Python strings are modelled as `List Char`; only the ASCII fragment of
  `\w`, `\s`, `str.lower` is modelled (the repository's SQL and schema data
  are ASCII).  `String` wrappers are used at API boundaries.
* Python floats are modelled as exact rationals.  Executable code carries
  them as unreduced fractions `Frac = Nat × Nat` (numerator, positive
  denominator) compared by cross multiplication, so that all concrete
  computations reduce inside the Lean kernel; theorem statements interpret
  them in `ℚ` through `Frac.val`.  All ratios appearing in the concrete
  inputs below are far from the decision thresholds, where float and exact
  rational comparison agree.
* Recursions over text are given fuel equal to the text length, which makes
  them structurally recursive and kernel-computable; every step consumes at
  least one character, so the fuel is never exhausted.
-/

set_option maxRecDepth 10000

/-! ### Basic character helpers (ASCII fragment of Python `str` / `re`) -/

/-- ASCII lower-casing, the fragment of Python `str.lower` used by the code. -/
def asciiLower (c : Char) : Char :=
  if 'A' ≤ c ∧ c ≤ 'Z' then Char.ofNat (c.toNat + 32) else c

/-- Lower-case a Python string (`s.lower()`). -/
def lowerL (l : List Char) : List Char := l.map asciiLower

/-- Word character of the regex class `\w` (ASCII fragment). -/
def isWordChar (c : Char) : Bool :=
  ('a' ≤ c ∧ c ≤ 'z') ∨ ('A' ≤ c ∧ c ≤ 'Z') ∨ ('0' ≤ c ∧ c ≤ '9') ∨ c = '_'

/-- Whitespace of the regex class `\s` (ASCII fragment). -/
def isPySpace (c : Char) : Bool :=
  c = ' ' ∨ c = '\t' ∨ c = '\n' ∨ c = '\r' ∨ c = Char.ofNat 11 ∨ c = Char.ofNat 12

/-- Python `[a-z]` test used by `_split_ident`'s camel-case regex. -/
def isAsciiLowerAlpha (c : Char) : Bool := 'a' ≤ c ∧ c ≤ 'z'

/-- Python `[A-Z]` test. -/
def isAsciiUpperAlpha (c : Char) : Bool := 'A' ≤ c ∧ c ≤ 'Z'

/-- Python `[0-9]` (`\d`) test. -/
def isAsciiDigit (c : Char) : Bool := '0' ≤ c ∧ c ≤ '9'

/-- Python `[A-Za-z0-9]` test. -/
def isAsciiAlnum (c : Char) : Bool :=
  isAsciiLowerAlpha c ∨ isAsciiUpperAlpha c ∨ isAsciiDigit c

/-- Lexicographic code-point order on character lists: exactly Python's
`<=` on strings (and the order used by Python `sorted` on strings). -/
def lexLe : List Char → List Char → Bool
  | [], _ => true
  | _ :: _, [] => false
  | a :: as, b :: bs =>
    if a < b then true
    else if b < a then false
    else lexLe as bs

/-- The order on `String` induced by `lexLe`; Python's string order. -/
def strLe (a b : String) : Prop := lexLe a.data b.data = true

instance : DecidableRel strLe := fun a b => by unfold strLe; infer_instance

/-- Python `sorted` on a list of strings. -/
def sortedStrings (l : List String) : List String := List.insertionSort strLe l

/-! ### Exact fractions standing for the Python floats -/

/-- An unreduced nonnegative fraction `num / den`, `den > 0` at every use
site.  Stands for the Python floats produced by `difflib`'s `ratio` and the
ranking scores; kept unreduced so the kernel can compute with it. -/
abbrev Frac := Nat × Nat

/-- The rational value of a fraction (used in statements only). -/
def Frac.val (p : Frac) : ℚ := (p.1 : ℚ) / (p.2 : ℚ)

/-- `a ≤ b` on fractions by cross multiplication. -/
def Frac.leB (a b : Frac) : Bool := a.1 * b.2 ≤ b.1 * a.2

/-- `a < b` on fractions by cross multiplication. -/
def Frac.ltB (a b : Frac) : Bool := a.1 * b.2 < b.1 * a.2

/-- `a - b < c` on fractions (used for the `min_gap` ambiguity guard:
`best_r - second_r < min_gap`).  Computed in `ℤ` by cross multiplication. -/
def Frac.subLtB (a b c : Frac) : Bool :=
  ((a.1 : ℤ) * b.2 - (b.1 : ℤ) * a.2) * c.2 < (c.1 : ℤ) * (a.2 * b.2)

/-- Equality of the rational values of two fractions. -/
def Frac.eqB (a b : Frac) : Bool := a.1 * b.2 = b.1 * a.2

/-! ### `difflib.SequenceMatcher.ratio`

Model of the CPython `difflib` matching algorithm for short inputs (below
the autojunk threshold of 200 elements, so the junk machinery is inert; the
post-loop junk-extension `while` loops are then no-ops because the dynamic
program already returns a maximal block). -/

/-- Ascending list of the indices `j` with `b[j] = c` (difflib's `b2j`). -/
def b2jOf (b : List Char) (c : Char) : List Nat :=
  (List.range b.length).filter (fun j => b[j]? = some c)

/-- One row of `find_longest_match`'s dynamic program: given the map
`j2len` of the previous row (as an association list, difflib's
`j2len.get(j-1, 0)`, which is `0` when `j = 0`) and the match positions
`js` of `a[i]` in `b`, produce the new row and update the best block
`(besti, bestj, bestsize)`. -/
def flmRow (j2len : List (Nat × Nat)) (js : List Nat) (i blo bhi : Nat)
    (best : Nat × Nat × Nat) : List (Nat × Nat) × (Nat × Nat × Nat) :=
  js.foldl
    (fun acc j =>
      if j < blo ∨ bhi ≤ j then acc
      else
        let k := (match j2len.find? (fun e => e.1 + 1 = j) with
          | some e => e.2
          | none => 0) + 1
        let best' := if acc.2.2.2 < k then (i + 1 - k, j + 1 - k, k) else acc.2
        ((j, k) :: acc.1, best'))
    ([], best)

/-- `find_longest_match(alo, ahi, blo, bhi)` of difflib (no junk). -/
def findLongestMatch (a b : List Char) (alo ahi blo bhi : Nat) : Nat × Nat × Nat :=
  (List.range' alo (ahi - alo)).foldl
    (fun acc i =>
      let (row, best) := flmRow acc.1 (b2jOf b (a.getD i ' ')) i blo bhi acc.2
      (row, best))
    ([], (alo, blo, 0)) |>.2

/-- Total size of the matching blocks (`get_matching_blocks` recursion of
difflib; only the sum of the block sizes is needed for `ratio`).  The fuel
is structural; a fuel of `ahi + bhi + 1` always suffices because each
recursion strictly shrinks the pair of ranges. -/
def matchTotal (a b : List Char) : Nat → Nat → Nat → Nat → Nat → Nat
  | 0, _, _, _, _ => 0
  | fuel + 1, alo, ahi, blo, bhi =>
    if ahi ≤ alo ∨ bhi ≤ blo then 0
    else
      match findLongestMatch a b alo ahi blo bhi with
      | (i, j, k) =>
        if k = 0 then 0
        else
          matchTotal a b fuel alo i blo j + k +
            matchTotal a b fuel (i + k) ahi (j + k) bhi

/-- `SequenceMatcher(None, a, b).ratio()`: `2 * M / (len(a) + len(b))`,
and `1.0` when both sequences are empty (difflib's `_calculate_ratio`). -/
def similarityOf (a b : List Char) : Frac :=
  if a.length + b.length = 0 then (1, 1)
  else (2 * matchTotal a b (a.length + b.length + 1) 0 a.length 0 b.length,
        a.length + b.length)

/-! ### `database/db_manager.py`: identifier tokenizer and stemmer -/

/-- The camel-case boundary pass `re.sub(r"([a-z])([A-Z])", r"\1 \2", s)`:
a match consumes both characters, scanning resumes after them. -/
def camelSub : List Char → List Char
  | c1 :: c2 :: rest =>
    if isAsciiLowerAlpha c1 ∧ isAsciiUpperAlpha c2 then
      c1 :: ' ' :: c2 :: camelSub rest
    else c1 :: camelSub (c2 :: rest)
  | l => l

/-- The pass `re.sub(r"(\D)(\d)", r"\1 \2", s)`. -/
def nonDigitDigitSub : List Char → List Char
  | c1 :: c2 :: rest =>
    if ¬ isAsciiDigit c1 ∧ isAsciiDigit c2 then
      c1 :: ' ' :: c2 :: nonDigitDigitSub rest
    else c1 :: nonDigitDigitSub (c2 :: rest)
  | l => l

/-- The pass `re.sub(r"(\d)(\D)", r"\1 \2", s)`. -/
def digitNonDigitSub : List Char → List Char
  | c1 :: c2 :: rest =>
    if isAsciiDigit c1 ∧ ¬ isAsciiDigit c2 then
      c1 :: ' ' :: c2 :: digitNonDigitSub rest
    else c1 :: digitNonDigitSub (c2 :: rest)
  | l => l

/-- `re.findall(r"[A-Za-z0-9]+", s)`: maximal alphanumeric runs. -/
def alnumRuns : List Char → List Char → List (List Char)
  | [], acc => if acc = [] then [] else [acc.reverse]
  | c :: cs, acc =>
    if isAsciiAlnum c then alnumRuns cs (c :: acc)
    else if acc = [] then alnumRuns cs [] else acc.reverse :: alnumRuns cs []

/-- `DatabaseManager._split_ident` on the character-list level:
underscores become spaces, camel-case and letter/digit boundaries are
spaced, then maximal alphanumeric runs are extracted. -/
def splitIdentL (l : List Char) : List (List Char) :=
  alnumRuns
    (digitNonDigitSub (nonDigitDigitSub (camelSub
      (l.map (fun c => if c = '_' then ' ' else c))))) []

/-- `DatabaseManager._split_ident`. -/
def _split_ident (s : String) : List String := (splitIdentL s.data).map String.mk

/-- Suffix test on character lists (`str.endswith`). -/
def endsWithL (suf l : List Char) : Bool :=
  suf.length ≤ l.length ∧ l.drop (l.length - suf.length) = suf

/-- Drop the last `n` characters (`tok[:-n]`). -/
def dropRightL (n : Nat) (l : List Char) : List Char := l.take (l.length - n)

/-- `DatabaseManager._stem`, the tiny deterministic suffix stemmer.  Each
guard tests the length of the *token* (`len(tok)` in the source). -/
def _stem (tok : String) : String :=
  if 4 < tok.data.length ∧ endsWithL "ing".data tok.data then
    String.mk (dropRightL 3 tok.data)
  else if 3 < tok.data.length ∧ endsWithL "ed".data tok.data then
    String.mk (dropRightL 2 tok.data)
  else if 3 < tok.data.length ∧ endsWithL "es".data tok.data then
    String.mk (dropRightL 2 tok.data)
  else if 2 < tok.data.length ∧ endsWithL "s".data tok.data then
    String.mk (dropRightL 1 tok.data)
  else tok

/-- The stopword set of `DatabaseManager._normalize_tokens`. -/
def STOPWORDS : List String :=
  ["a", "an", "the", "all", "any", "from", "to", "of", "in", "on", "at",
   "for", "with", "and", "or", "is", "are", "was", "were", "be", "been",
   "do", "does", "did", "list", "show", "give", "get", "find", "what",
   "which", "who", "where", "when", "how", "many", "much"]

/-- `DatabaseManager._normalize_tokens`: lower-case, split, drop
stopwords, stem. -/
def _normalize_tokens (text : String) : List String :=
  ((splitIdentL (lowerL text.data)).filter
      (fun raw => ¬ STOPWORDS.contains (String.mk raw))).map
    (fun raw => _stem (String.mk raw))

/-! ### `database/db_manager.py`: ranking and selection -/

/-- Python `max` on two fractions (`max(best_fuzzy, ratio)`). -/
def fracMax (a b : Frac) : Frac := if Frac.ltB a b then b else a

/-- The deduplicated stemmed name tokens of a table
(`{_stem(x.lower()) for x in _split_ident(table)}`). -/
def tableTokensOf (table : String) : List String :=
  ((splitIdentL table.data).map (fun x => _stem (String.mk (lowerL x)))).dedup

/-- The deduplicated stemmed column tokens of a table's columns. -/
def colTokensOf (cols : List String) : List String :=
  (((cols.map (fun c => splitIdentL c.data)).flatten).map
    (fun x => _stem (String.mk (lowerL x)))).dedup

/-- The score `_rank_tables_for_question` computes for one table:
`3.0 * |q ∩ tableToks| + 1.0 * |q ∩ colToks| + 0.25 * best_fuzzy`, as an
exact fraction (`best_fuzzy` is a fraction `n/d`, so the score is
`((3*th + ch) * 4*d + n) / (4*d)`). -/
def scoreFrac (qTokens : List String) (table : String) (cols : List String) : Frac :=
  let qSet := qTokens.dedup
  let tToks := tableTokensOf table
  let cToks := colTokensOf cols
  let tableHits := (qSet.filter (fun t => t ∈ tToks)).length
  let colHits := (qSet.filter (fun t => t ∈ cToks)).length
  let fz := qTokens.foldl
    (fun acc qt => tToks.foldl
      (fun acc2 tt => fracMax acc2 (similarityOf qt.data tt.data)) acc) (0, 1)
  ((3 * tableHits + colHits) * (4 * fz.2) + fz.1, 4 * fz.2)

/-- Replace a zero denominator (never produced by the code) so that the
ranking order below is total and transitive on all of `Frac`. -/
def Frac.withPosDen (p : Frac) : Frac := if p.2 = 0 then (0, 1) else p

/-- The sort order of `ranked.sort(key=lambda x: (-x[1], x[0]))`:
descending score, ties by ascending table name. -/
def rankRel (a b : String × Frac) : Prop :=
  Frac.ltB b.2.withPosDen a.2.withPosDen = true ∨
    (Frac.eqB a.2.withPosDen b.2.withPosDen = true ∧ strLe a.1 b.1)

instance : DecidableRel rankRel := fun a b => by unfold rankRel; infer_instance

/-- `DatabaseManager._rank_tables_for_question` (weights 3.0, 1.0, 0.25). -/
def _rank_tables_for_question (question : String)
    (schemaMap : List (String × List String)) : List (String × Frac) :=
  let qTokens := _normalize_tokens question
  List.insertionSort rankRel
    (schemaMap.map (fun tc => (tc.1, scoreFrac qTokens tc.1 tc.2)))

/-- `fk_graph.get(t, set())`, as a sorted deduplicated list
(`sorted(...)` is applied by the caller). -/
def graphNbs (g : List (String × List String)) (t : String) : List String :=
  match g.find? (fun e => e.1 = t) with
  | some e => e.2.dedup
  | none => []

/-- Inner neighbor loop of `_select_tables`: append unseen neighbors,
breaking as soon as the budget is reached. -/
def innerAdd (maxT : Nat) : List String → List String → List String
  | [], sel => sel
  | nb :: rest, sel =>
    if sel.contains nb then innerAdd maxT rest sel
    else
      let sel2 := sel ++ [nb]
      if maxT ≤ sel2.length then sel2 else innerAdd maxT rest sel2

/-- Outer neighbor loop of `_select_tables` over the snapshot `base`. -/
def outerAdd (g : List (String × List String)) (maxT : Nat) :
    List String → List String → List String
  | [], sel => sel
  | t :: base, sel =>
    let sel2 := innerAdd maxT (sortedStrings (graphNbs g t)) sel
    if maxT ≤ sel2.length then sel2 else outerAdd g maxT base sel2

/-- `DatabaseManager._select_tables`.  A score is `> 0` exactly when its
numerator is positive (denominators are positive); an empty `fk_graph`
dict is falsy in Python, hence the `g ≠ []` test. -/
def _select_tables (question : String) (schemaMap : List (String × List String))
    (maxTables : Nat) (fkGraph : Option (List (String × List String)))
    (addNeighbors : Bool) : List String :=
  let ranked := _rank_tables_for_question question schemaMap
  let selected := ((ranked.filter (fun ts => Frac.ltB (0, 1) ts.2)).map Prod.fst).take maxTables
  let selected :=
    if selected = [] then (sortedStrings (schemaMap.map Prod.fst)).take maxTables
    else selected
  match fkGraph with
  | none => selected
  | some g =>
    if g ≠ [] ∧ addNeighbors = true ∧ selected.length < maxTables then
      outerAdd g maxTables selected selected
    else selected

/-! ### `scripts/sql_utils.py`: fuzzy table-name repair

The `_QUOTED` regex splits the SQL into alternating unquoted/quoted spans;
the `_TABLE_POS` regex finds a table identifier right after
FROM/JOIN/UPDATE/INTO/DELETE FROM.  Both are modelled by explicit scanners
with the exact `re` semantics (leftmost match, greedy with backtracking,
non-overlapping `re.sub` scanning). -/

/-- The quote characters (39 = single quote, 34 = double quote, 96 =
backtick). -/
def singleQuoteChar : Char := Char.ofNat 39

def doubleQuoteChar : Char := Char.ofNat 34

def backquoteChar : Char := Char.ofNat 96

/-- Scan for the closing quote of a literal opened with `q` (the opening
quote itself is already consumed).  Doubled quotes are escaped; when a
doubled pair is consumed but the literal then fails to terminate, the
regex `'(?:''|[^'])*'` backtracks and closes at the first quote of the
pair, which is the `none` fallback below.  Returns the literal body
(including the closing quote) and the remainder, or `none` when no
closing quote exists. -/
def findClose (q : Char) : List Char → Option (List Char × List Char)
  | [] => none
  | c :: cs =>
    if c = q then
      match cs with
      | c2 :: cs2 =>
        if c2 = q then
          match findClose q cs2 with
          | some (body, rest) => some (c :: c2 :: body, rest)
          | none => some ([c], cs)
        else some ([c], cs)
      | [] => some ([c], [])
    else
      match findClose q cs with
      | some (body, rest) => some (c :: body, rest)
      | none => none

/-- `_QUOTED.split(sql)`: alternating spans, even positions unquoted, odd
positions complete quoted literals.  An opening quote with no closing
quote matches nothing and stays in the surrounding unquoted span. -/
def quoteSplitAux : Nat → List Char → List Char → List (List Char)
  | 0, acc, l => [acc.reverse ++ l]
  | fuel + 1, acc, l =>
    match l with
    | [] => [acc.reverse]
    | c :: cs =>
      if c = singleQuoteChar ∨ c = doubleQuoteChar then
        match findClose c cs with
        | some (body, rest) => acc.reverse :: (c :: body) :: quoteSplitAux fuel [] rest
        | none => quoteSplitAux fuel (c :: acc) cs
      else quoteSplitAux fuel (c :: acc) cs

/-- `_QUOTED.split` at the top level. -/
def quoteSplitParts (l : List Char) : List (List Char) := quoteSplitAux l.length [] l

/-- Case-insensitive literal prefix match; returns the consumed original
characters and the remainder (`kw` is given in lower case). -/
def stripPrefixCI : List Char → List Char → Option (List Char × List Char)
  | [], l => some ([], l)
  | _ :: _, [] => none
  | k :: ks, c :: cs =>
    if asciiLower c = k then
      match stripPrefixCI ks cs with
      | some (d, rest) => some (c :: d, rest)
      | none => none
    else none

/-- Match one of the keywords `from|join|update|into|delete\s+from`
(case-insensitively) at the head of the list. -/
def matchKwCI (l : List Char) : Option (List Char × List Char) :=
  match stripPrefixCI "from".data l with
  | some r => some r
  | none =>
  match stripPrefixCI "join".data l with
  | some r => some r
  | none =>
  match stripPrefixCI "update".data l with
  | some r => some r
  | none =>
  match stripPrefixCI "into".data l with
  | some r => some r
  | none =>
  match stripPrefixCI "delete".data l with
  | some (d, r1) =>
    let sp := r1.takeWhile isPySpace
    let r2 := r1.dropWhile isPySpace
    if sp = [] then none
    else
      match stripPrefixCI "from".data r2 with
      | some (f, r3) => some (d ++ sp ++ f, r3)
      | none => none
  | none => none

/-- First character of the identifier class `[A-Za-z_]`. -/
def isTokStart (c : Char) : Bool :=
  isAsciiLowerAlpha c ∨ isAsciiUpperAlpha c ∨ c = '_'

/-- Greedy match of the token group `([A-Za-z_][\w]*)`. -/
def takeTok : List Char → Option (List Char × List Char)
  | [] => none
  | c :: cs =>
    if isTokStart c then some (c :: cs.takeWhile isWordChar, cs.dropWhile isWordChar)
    else none

/-- Attempt to match `_TABLE_POS` at the current position.  `prev` is the
character before the position (`none` at the start of the span); the
leading `\b` holds iff `prev` is not a word character.  The `\b` after
the keyword is subsumed by the mandatory `\s+`.  Returns
`(matched_text, token, rest)` — `matched_text` is `m.group(0)`. -/
def tryMatch (prev : Option Char) (l : List Char) :
    Option (List Char × List Char × List Char) :=
  if (match prev with | none => false | some c => isWordChar c) then none
  else
    match matchKwCI l with
    | none => none
    | some (kw, r1) =>
      let sp := r1.takeWhile isPySpace
      let r2 := r1.dropWhile isPySpace
      if sp = [] then none
      else
        match r2 with
        | [] => none
        | c :: r3 =>
          if c = backquoteChar then
            match takeTok r3 with
            | some (tok, r4) =>
              match r4 with
              | c2 :: r5 =>
                if c2 = backquoteChar then some (kw ++ sp ++ [c] ++ tok ++ [c2], tok, r5)
                else some (kw ++ sp ++ [c] ++ tok, tok, r4)
              | [] => some (kw ++ sp ++ [c] ++ tok, tok, [])
            | none => none
          else
            match takeTok (c :: r3) with
            | some (tok, r4) =>
              match r4 with
              | c2 :: r5 =>
                if c2 = backquoteChar then some (kw ++ sp ++ tok ++ [c2], tok, r5)
                else some (kw ++ sp ++ tok, tok, r4)
              | [] => some (kw ++ sp ++ tok, tok, [])
            | none => none

/-- Python `str.replace(t, v)`: replace every non-overlapping occurrence
of `t`, scanning left to right.  (The empty-pattern case never arises:
the token group of `_TABLE_POS` is nonempty.) -/
def strReplaceAux (t v : List Char) : Nat → List Char → List Char
  | 0, l => l
  | fuel + 1, l =>
    if t.isPrefixOf l then v ++ strReplaceAux t v fuel (l.drop t.length)
    else
      match l with
      | [] => []
      | c :: cs => c :: strReplaceAux t v fuel cs

/-- Python `s.replace(t, v)`. -/
def strReplace (s t v : List Char) : List Char :=
  if t = [] then s else strReplaceAux t v s.length s

/-- A recorded correction `{"from": origTok, "to": newTok, "ratio":
ratio4 / 10000}` (the ratio is rounded to 4 decimal places; `ratio4` is
its numerator over the fixed denominator 10000). -/
structure TableChange where
  origTok : String
  newTok : String
  ratio4 : Nat
  deriving DecidableEq, Repr

/-- `round(x, 4)` on an exact nonnegative fraction, with Python's
round-half-to-even tie rule. -/
def round4 (p : Frac) : Nat :=
  let y := p.1 * 10000
  let q := y / p.2
  let r := y % p.2
  if 2 * r < p.2 then q
  else if p.2 < 2 * r then q + 1
  else if q % 2 = 0 then q else q + 1

/-- Sort order of `scored.sort(reverse=True, key=lambda x: x[0])`:
stable, descending by ratio. -/
def descRel (a b : Frac × List Char) : Prop :=
  Frac.leB b.1.withPosDen a.1.withPosDen = true

instance : DecidableRel descRel := fun a b => by unfold descRel; infer_instance

/-- `sql_utils._best_table_match`: returns
`(best_table, best_ratio, second_best_ratio)`. -/
def _best_table_match (token : List Char) (tables : List (List Char))
    (minRatio : Frac) : List Char × Frac × Frac :=
  let t := lowerL token
  match tables.find? (fun real => lowerL real = t) with
  | some real => (real, (1, 1), (0, 1))
  | none =>
    match (if endsWithL ['s'] t then
            tables.find? (fun real => lowerL real = dropRightL 1 t)
           else none) with
    | some real => (real, (99, 100), (0, 1))
    | none =>
      match List.insertionSort descRel
          (tables.map (fun real => (similarityOf t (lowerL real), real))) with
      | [] => (token, (0, 1), (0, 1))
      | (bestR, best) :: rest =>
        let secondR := match rest with
          | [] => ((0 : Nat), (1 : Nat))
          | (r2, _) :: _ => r2
        if Frac.ltB bestR minRatio then (token, bestR, secondR)
        else (best, bestR, secondR)

/-- The `repl` closure inside `repair_pred_table_names`: decide what the
matched text `m` becomes and whether a correction is recorded. -/
def replOutcome (m tok : List Char) (tables : List (List Char))
    (minRatio minGap : Frac) : List Char × Option TableChange :=
  match _best_table_match tok tables minRatio with
  | (best, bestR, secondR) =>
    if lowerL best ≠ lowerL tok then
      if Frac.subLtB bestR secondR minGap ∧ Frac.ltB bestR (99, 100) then
        (m, none)
      else
        (strReplace m tok best, some ⟨String.mk tok, String.mk best, round4 bestR⟩)
    else (strReplace m tok best, none)

/-- `_TABLE_POS.sub(repl, chunk)`: scan the unquoted chunk position by
position; at a match, emit the replacement and resume after the matched
text (tracking its last character for the next `\b` test). -/
def subChunkAux (tables : List (List Char)) (minRatio minGap : Frac) :
    Nat → Option Char → List Char → List Char × List TableChange
  | 0, _, l => (l, [])
  | fuel + 1, prev, l =>
    match tryMatch prev l with
    | some (m, tok, rest) =>
      let (rep, ch) := replOutcome m tok tables minRatio minGap
      let (out, chs) := subChunkAux tables minRatio minGap fuel m.getLast? rest
      (rep ++ out, ch.toList ++ chs)
    | none =>
      match l with
      | [] => ([], [])
      | c :: cs =>
        let (out, chs) := subChunkAux tables minRatio minGap fuel (some c) cs
        (c :: out, chs)

/-- `_TABLE_POS.sub(repl, chunk)` on a whole chunk. -/
def subChunk (tables : List (List Char)) (minRatio minGap : Frac)
    (u : List Char) : List Char × List TableChange :=
  subChunkAux tables minRatio minGap u.length none u

/-- The `for i in range(0, len(parts), 2)` loop of
`repair_pred_table_names`: rewrite the even (unquoted) spans, keep the
odd (quoted) spans verbatim, accumulate the corrections in order. -/
def repairParts (tables : List (List Char)) (minRatio minGap : Frac) :
    List (List Char) → List (List Char) × List TableChange
  | [] => ([], [])
  | [u] =>
    let (o, ch) := subChunk tables minRatio minGap u
    ([o], ch)
  | u :: q :: rest =>
    let (o, ch) := subChunk tables minRatio minGap u
    let (os, chs) := repairParts tables minRatio minGap rest
    (o :: q :: os, ch ++ chs)

/-- `sql_utils.repair_pred_table_names` (defaults `min_ratio=0.86`,
`min_gap=0.03`). -/
def repair_pred_table_names (sql : String) (actualTables : List String)
    (minRatio : Frac := (86, 100)) (minGap : Frac := (3, 100)) :
    String × List TableChange :=
  if sql.data = [] ∨ actualTables = [] then (sql, [])
  else
    let parts := quoteSplitParts sql.data
    let (outParts, chs) :=
      repairParts (actualTables.map (fun s => s.data)) minRatio minGap parts
    (String.mk outParts.flatten, chs)

/-! ### `scripts/sql_utils.py`: gold-SQL materialization -/

/-- One element of `entry["variables"]`: `v.get("name")` and
`v.get("example")` (the field is called `exVal` because `example` is a
Lean keyword).  A missing key is `none`. -/
structure EntryVar where
  name : Option String
  exVal : Option String

/-- The dataset entry as consumed by `fill_gold_sql`: `entry.get("sql",
[])` (a missing key and an empty list are both the empty list) and
`entry.get("variables", [])`. -/
structure GoldEntry where
  sql : List String
  vars : List EntryVar

/-- The sentence as consumed by `fill_gold_sql`:
`sentence.get("variables", {})` as an insertion-ordered association list
(`none` values model JSON nulls). -/
structure GoldSentence where
  vars : List (String × Option String)

/-- Build the `replacements` dict: the sentence variables, then every
entry variable with a truthy name that is not already present. -/
def buildRepl (e : GoldEntry) (s : GoldSentence) : List (String × Option String) :=
  e.vars.foldl
    (fun acc v =>
      match v.name with
      | none => acc
      | some n =>
        if n = "" then acc
        else if acc.any (fun p => p.1 = n) then acc
        else acc ++ [(n, v.exVal)])
    s.vars

/-- One pass of `re.sub(rf"(?<![A-Za-z0-9_]){name}(?![A-Za-z0-9_])",
value, sql)`: whole-identifier occurrences of `name` are replaced by
`val`, scanning left to right. -/
def wordSubAux (name val : List Char) : Nat → Option Char → List Char → List Char
  | 0, _, l => l
  | fuel + 1, prev, l =>
    if ((match prev with | none => true | some c => ! isWordChar c)
        && name.isPrefixOf l
        && (match (l.drop name.length).head? with
            | none => true
            | some c => ! isWordChar c)) = true then
      val ++ wordSubAux name val fuel name.getLast? (l.drop name.length)
    else
      match l with
      | [] => []
      | c :: cs => c :: wordSubAux name val fuel (some c) cs

/-- Whole-identifier substitution (names are nonempty at every call
site, the builder filters falsy names). -/
def wordSub (name val s : List Char) : List Char :=
  if name = [] then s else wordSubAux name val s.length none s

/-- `sorted(replacements.keys(), key=len, reverse=True)`: stable,
longest names first. -/
def lenRel (a b : String × Option String) : Prop :=
  b.1.data.length ≤ a.1.data.length

instance : DecidableRel lenRel := fun a b => by unfold lenRel; infer_instance

/-- `sql_utils.fill_gold_sql`: use the first SQL variant, replace each
non-null variable value, longest names first. -/
def fill_gold_sql (e : GoldEntry) (s : GoldSentence) : String :=
  match e.sql with
  | [] => ""
  | sql0 :: _ =>
    let repl := buildRepl e s
    if repl = [] then sql0
    else
      String.mk
        ((List.insertionSort lenRel repl).foldl
          (fun acc nv =>
            match nv.2 with
            | none => acc
            | some v => wordSub nv.1.data v.data acc)
          sql0.data)

/-! ### `scripts/sql_utils.py`: result comparison

`compare_results` works on pandas DataFrames.  A query result is modelled
as a rectangular table of cells over integer and string values (`None` /
`NaN` cells are `none`); column labels are distinct, as they are for the
`pd.read_sql` results this function receives.  The pandas operations used
are modelled as follows:
* `fillna("__NULL__")` maps every `none` cell to the string sentinel;
* `sort_values(by=cols)` sorts the rows lexicographically by the tuple of
  column values; it raises `TypeError` — caught by the `except` clause,
  which returns `False` — exactly when some key column contains two
  values that Python cannot order (an `int` and a `str`), which after the
  sentinel filling happens whenever a column mixes numbers with strings
  or nulls;
* `df1.equals(df2)` on the two canonically sorted frames is cell-by-cell
  equality (the frames' dtypes agree because the cell values do). -/

/-- A cell value of a query result. -/
inductive Value where
  | int (n : ℤ)
  | str (s : String)
  deriving DecidableEq, Repr

/-- A cell: `none` is SQL NULL / pandas NaN. -/
abbrev Cell := Option Value

/-- A query-result DataFrame: column labels (distinct) and rows. -/
structure DF where
  cols : List String
  rows : List (List Cell)
  nodup : cols.Nodup

/-- The sentinel `"__NULL__"` of `fillna`. -/
def nullSentinel : Value := Value.str "__NULL__"

/-- `fillna("__NULL__")` on one cell. -/
def fillCell : Cell → Value
  | none => nullSentinel
  | some v => v

/-- `set(a) == set(b)` on column label lists. -/
def sameColsB (a b : List String) : Bool :=
  a.all (fun x => b.contains x) && b.all (fun x => a.contains x)

/-- `result[cols]`: reorder every row into the column order `names`. -/
def reorderRows (d : DF) (names : List String) : List (List Cell) :=
  d.rows.map (fun r => names.map (fun n => r.getD (d.cols.indexOf n) none))

/-- Whether Python can order two values (`int` < `str` raises). -/
def Value.comparableB : Value → Value → Bool
  | .int _, .int _ => true
  | .str _, .str _ => true
  | _, _ => false

/-- Whether all values of column `k` are mutually comparable. -/
def colComparable (rows : List (List Value)) (k : Nat) : Bool :=
  let col := rows.map (fun r => r.getD k nullSentinel)
  col.all (fun a => col.all (fun b => Value.comparableB a b))

/-- Whether `sort_values(by=cols)` succeeds: every key column must be
free of unorderable pairs. -/
def allSortable (ncols : Nat) (rows : List (List Value)) : Bool :=
  (List.range ncols).all (fun k => colComparable rows k)

/-- Python `<=` on two comparable values (the cross-kind cases are junk,
guarded by `allSortable`). -/
def Value.leB : Value → Value → Bool
  | .int a, .int b => a ≤ b
  | .str a, .str b => lexLe a.data b.data
  | .int _, .str _ => true
  | .str _, .int _ => false

/-- Lexicographic row order by the full tuple of column values. -/
def rowLeB : List Value → List Value → Bool
  | [], _ => true
  | _ :: _, [] => false
  | a :: as, b :: bs => if a = b then rowLeB as bs else Value.leB a b

/-- Row order as a relation. -/
def rowRel (a b : List Value) : Prop := rowLeB a b = true

instance : DecidableRel rowRel := fun a b => by unfold rowRel; infer_instance

/-- `sort_values(by=cols).reset_index(drop=True)` on filled rows. -/
def sortRowsL (rows : List (List Value)) : List (List Value) :=
  List.insertionSort rowRel rows

/-- `sql_utils.compare_results`. -/
def compare_results : Option DF → Option DF → Bool
  | none, _ => false
  | some _, none => false
  | some d1, some d2 =>
    if sameColsB d1.cols d2.cols then
      let cols := sortedStrings d1.cols
      let m1 := reorderRows d1 cols
      let m2 := reorderRows d2 cols
      if m1.length = m2.length then
        let f1 := m1.map (fun r => r.map fillCell)
        let f2 := m2.map (fun r => r.map fillCell)
        if allSortable cols.length f1 && allSortable cols.length f2 then
          decide (sortRowsL f1 = sortRowsL f2)
        else false
      else false
    else false

/-- A one-column, one-cell result frame. -/
def oneCellDF (c : Cell) : DF := ⟨["a"], [[c]], by simp⟩

/-- The ranking order stated over rational score values: descending
score, ties broken by ascending table name. -/
def rankOrder (a b : String × Frac) : Prop :=
  b.2.val < a.2.val ∨ (a.2.val = b.2.val ∧ strLe a.1 b.1)

/-- The per-table best fuzzy similarity as the code computes it. -/
def bestFuzzy (question table : String) : Frac :=
  (_normalize_tokens question).foldl
    (fun acc qt => (tableTokensOf table).foldl
      (fun acc2 tt => fracMax acc2 (similarityOf qt.data tt.data)) acc) (0, 1)

/-- The specification's scoring formula:
`W_table * |tokens(q) ∩ tokens(T)| + W_col * |tokens(q) ∩ colTokens| +
W_fuzzy * best_fuzzy` with weights `3.0, 1.0, 0.25`. -/
def specScore (question table : String) (cols : List String) : ℚ :=
  3 * (((_normalize_tokens question).toFinset ∩ (tableTokensOf table).toFinset).card : ℚ) +
    1 * (((_normalize_tokens question).toFinset ∩ (colTokensOf cols).toFinset).card : ℚ) +
    (1 / 4 : ℚ) * (bestFuzzy question table).val

/-- The second-best ratio: `scored[1][0] if len(scored) > 1 else 0.0`. -/
def secondOf : List (Frac × List Char) → Frac
  | [] => (0, 1)
  | (r2, _) :: _ => r2

/-- No position of the span admits a `_TABLE_POS` match (`prev` is the
character preceding the span). -/
def noTablePosMatch : Option Char → List Char → Bool
  | _, [] => true
  | prev, c :: cs => (tryMatch prev (c :: cs)).isNone && noTablePosMatch (some c) cs

/-- The tokens the `_TABLE_POS` scan of a span would match, in order. -/
def matchedToksAux : Nat → Option Char → List Char → List (List Char)
  | 0, _, _ => []
  | fuel + 1, prev, l =>
    match tryMatch prev l with
    | some (m, tok, rest) => tok :: matchedToksAux fuel m.getLast? rest
    | none =>
      match l with
      | [] => []
      | _ :: cs => matchedToksAux fuel (match l with | [] => none | c :: _ => some c) cs

/-- The matched tokens of one unquoted span. -/
def matchedToks (u : List Char) : List (List Char) := matchedToksAux u.length none u

/-- The even-position (unquoted) spans of a `_QUOTED` split. -/
def evenParts : List (List Char) → List (List Char)
  | [] => []
  | [u] => [u]
  | u :: _ :: rest => u :: evenParts rest

/-- `SELECT 'x join in` — a single-quoted literal that is never closed. -/
def sqlC3in : String :=
  String.mk ("SELECT ".data ++ singleQuoteChar :: "x join in".data)

/-- What the repairer makes of `sqlC3in` with `tables = ["IN"]`. -/
def sqlC3out : String :=
  String.mk ("SELECT ".data ++ singleQuoteChar :: "x joIN IN".data)

/-- `SELECT 'flights' FROM flgihts` (the spec's own frame example). -/
def sqlFlgihts : String :=
  String.mk ("SELECT ".data ++ singleQuoteChar :: "flights".data ++
    singleQuoteChar :: " FROM flgihts".data)

/-- `SELECT 'flights' FROM flights`. -/
def sqlFlights : String :=
  String.mk ("SELECT ".data ++ singleQuoteChar :: "flights".data ++
    singleQuoteChar :: " FROM flights".data)

/-- `SELECT 'flights' FROM flight`. -/
def sqlFlightRep : String :=
  String.mk ("SELECT ".data ++ singleQuoteChar :: "flights".data ++
    singleQuoteChar :: " FROM flight".data)

/-! ### Order lemmas for the Python string order -/

theorem lexLe_refl (a : List Char) : lexLe a a = true := by
  induction a with
  | nil => rfl
  | cons c cs ih => simp [lexLe, ih]

theorem lexLe_total (a b : List Char) : lexLe a b = true ∨ lexLe b a = true := by
  induction a generalizing b with
  | nil => left; rfl
  | cons c cs ih =>
    cases b with
    | nil => right; rfl
    | cons d ds =>
      rcases lt_trichotomy c d with h | h | h
      · left; simp [lexLe, h]
      · subst h
        rcases ih ds with h' | h' <;> [left; right] <;> simp [lexLe, h', lt_irrefl]
      · right; simp [lexLe, h]

theorem lexLe_trans {a b c : List Char} (h1 : lexLe a b = true)
    (h2 : lexLe b c = true) : lexLe a c = true := by
  induction a generalizing b c with
  | nil => rfl
  | cons x xs ih =>
    cases b with
    | nil => simp [lexLe] at h1
    | cons y ys =>
      cases c with
      | nil => simp [lexLe] at h2
      | cons z zs =>
        simp only [lexLe] at h1 h2 ⊢
        rcases lt_trichotomy x y with hxy | hxy | hxy
        · rcases lt_trichotomy y z with hyz | hyz | hyz
          · simp [lt_trans hxy hyz]
          · subst hyz; simp [hxy]
          · simp [hyz, not_lt_of_gt hyz] at h2
        · subst hxy
          rcases lt_trichotomy x z with hxz | hxz | hxz
          · simp [hxz]
          · subst hxz
            simp only [lt_irrefl, if_false] at h1 h2 ⊢
            exact ih h1 h2
          · simp [hxz, not_lt_of_gt hxz] at h2
        · simp [hxy, not_lt_of_gt hxy] at h1

theorem lexLe_antisymm {a b : List Char} (h1 : lexLe a b = true)
    (h2 : lexLe b a = true) : a = b := by
  induction a generalizing b with
  | nil =>
    cases b with
    | nil => rfl
    | cons y ys => simp [lexLe] at h2
  | cons x xs ih =>
    cases b with
    | nil => simp [lexLe] at h1
    | cons y ys =>
      simp only [lexLe] at h1 h2
      rcases lt_trichotomy x y with hxy | hxy | hxy
      · simp [hxy, not_lt_of_gt hxy] at h2
      · subst hxy
        simp only [lt_irrefl, if_false] at h1 h2
        exact congrArg (x :: ·) (ih h1 h2)
      · simp [hxy, not_lt_of_gt hxy] at h1

instance : IsTotal String strLe := ⟨fun a b => lexLe_total a.data b.data⟩

instance : IsTrans String strLe := ⟨fun _ _ _ => lexLe_trans⟩

instance : IsRefl String strLe := ⟨fun a => lexLe_refl a.data⟩

instance : IsAntisymm String strLe :=
  ⟨fun a b h1 h2 => by
    cases a; cases b
    exact congrArg String.mk (lexLe_antisymm h1 h2)⟩

/-- Two lists of distinct strings with the same members sort identically. -/
theorem sortedStrings_eq_of_mem_iff {l₁ l₂ : List String} (h₁ : l₁.Nodup)
    (h₂ : l₂.Nodup) (h : ∀ a, a ∈ l₁ ↔ a ∈ l₂) :
    sortedStrings l₁ = sortedStrings l₂ := by
  have hp : l₁.Perm l₂ := (List.perm_ext_iff_of_nodup h₁ h₂).2 h
  exact List.eq_of_perm_of_sorted
    ((List.perm_insertionSort _ _).trans (hp.trans (List.perm_insertionSort _ _).symm))
    (List.sorted_insertionSort _ _) (List.sorted_insertionSort _ _)

/-! ### Bridging the executable fractions with their rational values -/

theorem Frac.ltB_iff_val {a b : Frac} (ha : 0 < a.2) (hb : 0 < b.2) :
    Frac.ltB a b = true ↔ a.val < b.val := by
  have ha' : (0 : ℚ) < (a.2 : ℚ) := by exact_mod_cast ha
  have hb' : (0 : ℚ) < (b.2 : ℚ) := by exact_mod_cast hb
  rw [Frac.ltB, decide_eq_true_iff, Frac.val, Frac.val, div_lt_div_iff₀ ha' hb']
  exact_mod_cast Iff.rfl

theorem Frac.leB_iff_val {a b : Frac} (ha : 0 < a.2) (hb : 0 < b.2) :
    Frac.leB a b = true ↔ a.val ≤ b.val := by
  have ha' : (0 : ℚ) < (a.2 : ℚ) := by exact_mod_cast ha
  have hb' : (0 : ℚ) < (b.2 : ℚ) := by exact_mod_cast hb
  rw [Frac.leB, decide_eq_true_iff, Frac.val, Frac.val, div_le_div_iff₀ ha' hb']
  exact_mod_cast Iff.rfl

theorem Frac.eqB_iff_val {a b : Frac} (ha : 0 < a.2) (hb : 0 < b.2) :
    Frac.eqB a b = true ↔ a.val = b.val := by
  have ha' : ((a.2 : ℚ)) ≠ 0 := by positivity
  have hb' : ((b.2 : ℚ)) ≠ 0 := by positivity
  rw [Frac.eqB, decide_eq_true_iff, Frac.val, Frac.val, div_eq_div_iff ha' hb']
  exact_mod_cast Iff.rfl

theorem Frac.subLtB_iff_val {a b c : Frac} (ha : 0 < a.2) (hb : 0 < b.2)
    (hc : 0 < c.2) : Frac.subLtB a b c = true ↔ a.val - b.val < c.val := by
  have ha' : (0 : ℚ) < (a.2 : ℚ) := by exact_mod_cast ha
  have hb' : (0 : ℚ) < (b.2 : ℚ) := by exact_mod_cast hb
  have hc' : (0 : ℚ) < (c.2 : ℚ) := by exact_mod_cast hc
  rw [Frac.subLtB, decide_eq_true_iff, Frac.val, Frac.val, Frac.val,
    div_sub_div _ _ (ne_of_gt ha') (ne_of_gt hb'),
    div_lt_div_iff₀ (by positivity) hc']
  constructor
  · intro h
    have h2 : (((a.1 : ℤ) * b.2 - (b.1 : ℤ) * a.2) * c.2 : ℚ) <
        (((c.1 : ℤ) * ((a.2 : ℤ) * (b.2 : ℤ)) : ℤ) : ℚ) := by exact_mod_cast h
    push_cast at h2 ⊢
    linarith
  · intro h
    have h2 : (((a.1 : ℤ) * b.2 - (b.1 : ℤ) * a.2) * c.2 : ℚ) <
        (((c.1 : ℤ) * ((a.2 : ℤ) * (b.2 : ℤ)) : ℤ) : ℚ) := by
      push_cast
      push_cast at h
      linarith
    exact_mod_cast h2

theorem Frac.withPosDen_pos (p : Frac) : 0 < p.withPosDen.2 := by
  unfold Frac.withPosDen
  by_cases h : p.2 = 0
  · simp [h]
  · simp [h]; omega

theorem Frac.withPosDen_eq {p : Frac} (h : 0 < p.2) : p.withPosDen = p := by
  unfold Frac.withPosDen
  simp [Nat.pos_iff_ne_zero.1 h]

instance : IsTotal (String × Frac) rankRel :=
  ⟨fun a b => by
    unfold rankRel
    set x := a.2.withPosDen with hx
    set y := b.2.withPosDen with hy
    have hxp := Frac.withPosDen_pos a.2
    have hyp := Frac.withPosDen_pos b.2
    rw [← hx] at hxp; rw [← hy] at hyp
    rcases lt_trichotomy x.val y.val with h | h | h
    · right; left; exact (Frac.ltB_iff_val hxp hyp).2 h
    · rcases lexLe_total a.1.data b.1.data with h' | h'
      · left; right; exact ⟨(Frac.eqB_iff_val hxp hyp).2 h, h'⟩
      · right; right; exact ⟨(Frac.eqB_iff_val hyp hxp).2 h.symm, h'⟩
    · left; left; exact (Frac.ltB_iff_val hyp hxp).2 h⟩

instance : IsTrans (String × Frac) rankRel :=
  ⟨fun a b c hab hbc => by
    unfold rankRel at hab hbc ⊢
    have hap := Frac.withPosDen_pos a.2
    have hbp := Frac.withPosDen_pos b.2
    have hcp := Frac.withPosDen_pos c.2
    rcases hab with hab | ⟨hab, hab'⟩ <;> rcases hbc with hbc | ⟨hbc, hbc'⟩
    · left
      exact (Frac.ltB_iff_val hcp hap).2
        (lt_trans ((Frac.ltB_iff_val hcp hbp).1 hbc) ((Frac.ltB_iff_val hbp hap).1 hab))
    · left
      exact (Frac.ltB_iff_val hcp hap).2
        (((Frac.eqB_iff_val hbp hcp).1 hbc) ▸ ((Frac.ltB_iff_val hbp hap).1 hab))
    · left
      exact (Frac.ltB_iff_val hcp hap).2
        (lt_of_lt_of_le ((Frac.ltB_iff_val hcp hbp).1 hbc)
          (le_of_eq ((Frac.eqB_iff_val hap hbp).1 hab).symm))
    · right
      exact ⟨(Frac.eqB_iff_val hap hcp).2
          (((Frac.eqB_iff_val hap hbp).1 hab).trans ((Frac.eqB_iff_val hbp hcp).1 hbc)),
        lexLe_trans hab' hbc'⟩⟩

instance : IsTotal (Frac × List Char) descRel :=
  ⟨fun a b => by
    unfold descRel
    rcases Nat.le_total (b.1.withPosDen.1 * a.1.withPosDen.2)
      (a.1.withPosDen.1 * b.1.withPosDen.2) with h | h
    · left; simpa [Frac.leB] using h
    · right; simpa [Frac.leB] using h⟩

instance : IsTrans (Frac × List Char) descRel :=
  ⟨fun a b c hab hbc => by
    unfold descRel at hab hbc ⊢
    have hap := Frac.withPosDen_pos a.1
    have hbp := Frac.withPosDen_pos b.1
    have hcp := Frac.withPosDen_pos c.1
    exact (Frac.leB_iff_val hcp hap).2
      (le_trans ((Frac.leB_iff_val hcp hbp).1 hbc) ((Frac.leB_iff_val hbp hap).1 hab))⟩

/-! ### Claim C9: the stemmer `_stem` -/

/-- Claim C9 counterexample: the claim says a trailing `"ing"` is
stripped only if the resulting stem length exceeds 4, but the code tests
the *token* length (`len(tok) > 4`): `_stem "doing" = "do"` strips the
suffix although the resulting stem has length 2 ≤ 4. -/
theorem claim_C9_counterexample :
    _stem "doing" = "do" ∧ (_stem "doing").data.length ≤ 4 := by decide

/-- Claim C9 (amended): `_stem` strips at most one suffix, checking
`"ing"` before `"ed"`/`"es"` before plain `"s"`, and strips a trailing
`"ing"` only if the token length exceeds 4, a trailing `"ed"`/`"es"` only
if the token length exceeds 3, and a trailing `"s"` only if the token
length exceeds 2; the same input always yields the same output. -/
theorem claim_C9_amended :
    (∀ tok : String, 4 < tok.data.length → endsWithL "ing".data tok.data = true →
      _stem tok = String.mk (dropRightL 3 tok.data)) ∧
    (∀ tok : String, ¬ (4 < tok.data.length ∧ endsWithL "ing".data tok.data = true) →
      3 < tok.data.length → endsWithL "ed".data tok.data = true →
      _stem tok = String.mk (dropRightL 2 tok.data)) ∧
    (∀ tok : String, ¬ (4 < tok.data.length ∧ endsWithL "ing".data tok.data = true) →
      3 < tok.data.length → endsWithL "es".data tok.data = true →
      _stem tok = String.mk (dropRightL 2 tok.data)) ∧
    (∀ tok : String, ¬ (4 < tok.data.length ∧ endsWithL "ing".data tok.data = true) →
      ¬ (3 < tok.data.length ∧ endsWithL "ed".data tok.data = true) →
      ¬ (3 < tok.data.length ∧ endsWithL "es".data tok.data = true) →
      2 < tok.data.length → endsWithL "s".data tok.data = true →
      _stem tok = String.mk (dropRightL 1 tok.data)) ∧
    (∀ tok : String, ¬ (4 < tok.data.length ∧ endsWithL "ing".data tok.data = true) →
      ¬ (3 < tok.data.length ∧ endsWithL "ed".data tok.data = true) →
      ¬ (3 < tok.data.length ∧ endsWithL "es".data tok.data = true) →
      ¬ (2 < tok.data.length ∧ endsWithL "s".data tok.data = true) →
      _stem tok = tok) ∧
    (∀ tok : String, _stem tok = _stem tok) := by
  refine ⟨?_, ?_, ?_, ?_, ?_, fun tok => rfl⟩
  · intro tok h1 h2
    rw [_stem, if_pos ⟨h1, h2⟩]
  · intro tok h h1 h2
    have hes : ¬ endsWithL "es".data tok.data = true := by
      intro hes
      have h2' := (of_decide_eq_true h2).2
      have hes' := (of_decide_eq_true hes).2
      have h3 : tok.data.length - "ed".data.length = tok.data.length - "es".data.length := rfl
      rw [h3, hes'] at h2'
      simp at h2'
    rw [_stem, if_neg h, if_pos ⟨h1, h2⟩]
  · intro tok h h1 h2
    have hed : ¬ endsWithL "ed".data tok.data = true := by
      intro hed
      have h2' := (of_decide_eq_true h2).2
      have hed' := (of_decide_eq_true hed).2
      have h3 : tok.data.length - "ed".data.length = tok.data.length - "es".data.length := rfl
      rw [h3, h2'] at hed'
      simp at hed'
    rw [_stem, if_neg h, if_neg (fun hc => hed hc.2), if_pos ⟨h1, h2⟩]
  · intro tok h1 h2 h3 h4 h5
    rw [_stem, if_neg h1, if_neg h2, if_neg h3, if_pos ⟨h4, h5⟩]
  · intro tok h1 h2 h3 h4
    rw [_stem, if_neg h1, if_neg h2, if_neg h3, if_neg h4]

/-- Witness for claim C9's amended theorem at concrete tokens. -/
theorem claim_C9_amended_witness :
    _stem "looking" = String.mk (dropRightL 3 "looking".data) ∧
    _stem "used" = String.mk (dropRightL 2 "used".data) ∧
    _stem "boxes" = String.mk (dropRightL 2 "boxes".data) ∧
    _stem "students" = String.mk (dropRightL 1 "students".data) ∧
    _stem "id" = "id" :=
  ⟨claim_C9_amended.1 "looking" (by decide) (by decide),
   claim_C9_amended.2.1 "used" (by decide) (by decide) (by decide),
   claim_C9_amended.2.2.1 "boxes" (by decide) (by decide) (by decide),
   claim_C9_amended.2.2.2.1 "students" (by decide) (by decide) (by decide)
     (by decide) (by decide),
   claim_C9_amended.2.2.2.2.1 "id" (by decide) (by decide) (by decide) (by decide)⟩

/-! ### Claim C10: `fill_gold_sql` on empty and multi-variant entries -/

/-- Claim C10: for an empty (or missing) `"sql"` list `fill_gold_sql`
returns the empty string (and never raises — the model is total); for a
non-empty list only the first SQL variant is substituted, later variants
are ignored. -/
theorem claim_C10 :
    (∀ vars sent, fill_gold_sql ⟨[], vars⟩ sent = "") ∧
    (∀ s0 rest rest' vars sent,
      fill_gold_sql ⟨s0 :: rest, vars⟩ sent = fill_gold_sql ⟨s0 :: rest', vars⟩ sent) ∧
    (∀ s0 rest vars sent,
      fill_gold_sql ⟨s0 :: rest, vars⟩ sent = fill_gold_sql ⟨[s0], vars⟩ sent) :=
  ⟨fun _ _ => rfl, fun _ _ _ _ _ => rfl, fun _ _ _ _ => rfl⟩

/-! ### Claim C2: the null sentinel of `compare_results` -/

/-- Claim C2 counterexample: the sentinel is the string `"__NULL__"`,
which is *not* distinguishable from the legitimate data value
`"__NULL__"`: a null cell compares equal to a non-null cell holding that
string, refuting "a null cell compares … unequal to every non-null
cell". -/
theorem claim_C2_counterexample :
    compare_results (some (oneCellDF (some (Value.str "__NULL__"))))
      (some (oneCellDF none)) = true := by decide

/-- Claim C2 (amended): `compare_results` replaces every null/missing
cell by the fixed sentinel string `"__NULL__"`, so nulls in the same
position compare equal (the claim's scenario holds) and a null cell
compares unequal to every non-null cell *except* one holding the literal
string `"__NULL__"`. -/
theorem claim_C2_amended :
    (compare_results
        (some ⟨["a", "b"], [[some (Value.int 1), none]], by simp⟩)
        (some ⟨["a", "b"], [[some (Value.int 1), none]], by simp⟩) = true) ∧
    (∀ v : Value,
      compare_results (some (oneCellDF none)) (some (oneCellDF (some v))) = true ↔
        v = nullSentinel) := by
  refine ⟨by decide, fun v => ?_⟩
  cases v with
  | int n =>
    have h : compare_results (some (oneCellDF none))
        (some (oneCellDF (some (Value.int n)))) = false := rfl
    simp [h, nullSentinel]
  | str s =>
    have h : compare_results (some (oneCellDF none))
        (some (oneCellDF (some (Value.str s)))) =
        decide ([[Value.str "__NULL__"]] = [[Value.str s]]) := rfl
    rw [h]
    simp [nullSentinel, eq_comm]

/-! ### Claim C1: symmetry and (conditional) reflexivity of `compare_results` -/

theorem sameColsB_comm (a b : List String) : sameColsB a b = sameColsB b a := by
  unfold sameColsB
  exact Bool.and_comm _ _

theorem sameColsB_mem {a b : List String} (h : sameColsB a b = true) :
    ∀ x, x ∈ a ↔ x ∈ b := by
  intro x
  unfold sameColsB at h
  rw [Bool.and_eq_true] at h
  rcases h with ⟨h1, h2⟩
  rw [List.all_eq_true] at h1 h2
  constructor
  · intro hx
    simpa using h1 x hx
  · intro hx
    simpa using h2 x hx

theorem sameColsB_refl (a : List String) : sameColsB a a = true := by
  unfold sameColsB
  simp [List.all_eq_true]

/-- Claim C1 counterexample: reflexivity fails.  For the successful
result `R` with one column `a` and rows `[1, NULL]`, after the sentinel
filling the column mixes an integer with a string, `sort_values` raises
`TypeError`, the `except` clause returns `False`, and
`compare_results(R, R) = False`. -/
theorem claim_C1_counterexample :
    compare_results (some ⟨["a"], [[some (Value.int 1)], [none]], by simp⟩)
      (some ⟨["a"], [[some (Value.int 1)], [none]], by simp⟩) = false := by decide

/-- Claim C1 (amended): `compare_results` is symmetric for every pair of
results, and `compare_results R R = true` holds for every non-error
result `R` whose columns are sortable after null replacement (no column
mixing numeric values with strings or nulls); for a result with such a
mixed column the row sort raises and `compare_results R R = false`. -/
theorem claim_C1_amended :
    (∀ r1 r2 : Option DF, compare_results r1 r2 = compare_results r2 r1) ∧
    (∀ d : DF,
      allSortable (sortedStrings d.cols).length
        ((reorderRows d (sortedStrings d.cols)).map (fun r => r.map fillCell)) = true →
      compare_results (some d) (some d) = true) := by
  constructor
  · intro r1 r2
    cases r1 with
    | none => cases r2 <;> rfl
    | some d1 =>
      cases r2 with
      | none => rfl
      | some d2 =>
        by_cases hc : sameColsB d1.cols d2.cols = true
        · have hc2 : sameColsB d2.cols d1.cols = true := by
            rwa [sameColsB_comm] at hc
          have hcols : sortedStrings d2.cols = sortedStrings d1.cols :=
            sortedStrings_eq_of_mem_iff d2.nodup d1.nodup
              (fun a => (sameColsB_mem hc a).symm)
          by_cases hlen : (reorderRows d1 (sortedStrings d1.cols)).length =
              (reorderRows d2 (sortedStrings d1.cols)).length
          · by_cases hs1 : allSortable (sortedStrings d1.cols).length
                ((reorderRows d1 (sortedStrings d1.cols)).map (fun r => r.map fillCell)) = true <;>
              by_cases hs2 : allSortable (sortedStrings d1.cols).length
                ((reorderRows d2 (sortedStrings d1.cols)).map (fun r => r.map fillCell)) = true <;>
              simp only [compare_results, hcols, hc, hc2, hlen, hs1, hs2, if_true,
                Bool.and_true, Bool.and_false, Bool.false_and, Bool.true_and,
                eq_self_iff_true, Bool.and_self, if_false]
            · exact decide_eq_decide.mpr eq_comm
            · simp [hs1, hs2]
            · simp [hs1, hs2]
            · simp [hs1, hs2]
          · have hlen2 : ¬ (reorderRows d2 (sortedStrings d1.cols)).length =
                (reorderRows d1 (sortedStrings d1.cols)).length := fun h => hlen h.symm
            simp [compare_results, hcols, hc, hc2, hlen, hlen2]
        · have hc2 : ¬ sameColsB d2.cols d1.cols = true := by
            rwa [sameColsB_comm] at hc
          simp [compare_results, hc, hc2]
  · intro d h
    simp [compare_results, sameColsB_refl, h]

/-- Witness for claim C1's amended theorem: reflexivity at a concrete
sortable result. -/
theorem claim_C1_amended_witness :
    compare_results (some ⟨["a", "b"], [[some (Value.int 3), none]], by simp⟩)
      (some ⟨["a", "b"], [[some (Value.int 3), none]], by simp⟩) = true :=
  claim_C1_amended.2 ⟨["a", "b"], [[some (Value.int 3), none]], by simp⟩ (by decide)

/-! ### Claim C6: the ranking formula, order and determinism -/

theorem fracMax_den_pos {a b : Frac} (ha : 0 < a.2) (hb : 0 < b.2) :
    0 < (fracMax a b).2 := by
  unfold fracMax
  split <;> assumption

theorem simDen_pos (a b : List Char) : 0 < (similarityOf a b).2 := by
  unfold similarityOf
  split
  · exact Nat.one_pos
  · omega

theorem innerFold_den_pos (qt : String) (ts : List String) :
    ∀ acc : Frac, 0 < acc.2 →
      0 < (ts.foldl (fun acc2 tt => fracMax acc2 (similarityOf qt.data tt.data)) acc).2 := by
  induction ts with
  | nil => intro acc h; exact h
  | cons t ts ih =>
    intro acc h
    exact ih _ (fracMax_den_pos h (simDen_pos _ _))

theorem fuzzyFold_den_pos (qs ts : List String) :
    ∀ acc : Frac, 0 < acc.2 →
      0 < (qs.foldl (fun acc qt =>
        ts.foldl (fun acc2 tt => fracMax acc2 (similarityOf qt.data tt.data)) acc) acc).2 := by
  induction qs with
  | nil => intro acc h; exact h
  | cons q qs ih =>
    intro acc h
    exact ih _ (innerFold_den_pos q ts acc h)

theorem scoreFrac_den_pos (qT : List String) (t : String) (cs : List String) :
    0 < (scoreFrac qT t cs).2 := by
  have h := fuzzyFold_den_pos qT (tableTokensOf t) (0, 1) Nat.one_pos
  simp only [scoreFrac]
  omega

theorem rankRel_implies_rankOrder {a b : String × Frac} (ha : 0 < a.2.2)
    (hb : 0 < b.2.2) (h : rankRel a b) : rankOrder a b := by
  unfold rankRel at h
  rw [Frac.withPosDen_eq ha, Frac.withPosDen_eq hb] at h
  rcases h with h | ⟨h, h'⟩
  · exact Or.inl ((Frac.ltB_iff_val hb ha).1 h)
  · exact Or.inr ⟨(Frac.eqB_iff_val ha hb).1 h, h'⟩

theorem filterLen_eq_interCard (l1 l2 : List String) :
    ((l1.dedup).filter (fun t => t ∈ l2)).length = (l1.toFinset ∩ l2.toFinset).card := by
  have hset : ((l1.dedup).filter (fun t => t ∈ l2)).toFinset = l1.toFinset ∩ l2.toFinset := by
    ext x
    simp [List.mem_filter, List.mem_dedup]
  have hnd : ((l1.dedup).filter (fun t => t ∈ l2)).Nodup := l1.nodup_dedup.filter _
  rw [← hset, List.card_toFinset, hnd.dedup]

theorem scoreFrac_val (q : String) (t : String) (cs : List String) :
    (scoreFrac (_normalize_tokens q) t cs).val = specScore q t cs := by
  have hden := fuzzyFold_den_pos (_normalize_tokens q) (tableTokensOf t) (0, 1) Nat.one_pos
  simp only [scoreFrac, specScore, Frac.val, bestFuzzy]
  rw [filterLen_eq_interCard, filterLen_eq_interCard]
  have hd : ((((_normalize_tokens q).foldl
      (fun acc qt => (tableTokensOf t).foldl
        (fun acc2 tt => fracMax acc2 (similarityOf qt.data tt.data)) acc) (0, 1)).2 : ℚ)) ≠ 0 := by
    exact_mod_cast Nat.pos_iff_ne_zero.1 hden
  field_simp

theorem rank_perm (q : String) (sm : List (String × List String)) :
    (_rank_tables_for_question q sm).Perm
      (sm.map (fun tc => (tc.1, scoreFrac (_normalize_tokens q) tc.1 tc.2))) :=
  List.perm_insertionSort _ _

theorem rank_den_pos (q : String) (sm : List (String × List String)) :
    ∀ x ∈ _rank_tables_for_question q sm, 0 < x.2.2 := by
  intro x hx
  have hx' := (rank_perm q sm).mem_iff.1 hx
  rcases List.mem_map.1 hx' with ⟨tc, _, rfl⟩
  exact scoreFrac_den_pos _ _ _

/-- Claim C6: `_rank_tables_for_question` is deterministic (a pure
function), returns the tables sorted by descending score with ties broken
by ascending table name, is a permutation of the scored schema, and each
score equals the specification's formula
`3.0 * |q ∩ nameToks| + 1.0 * |q ∩ colToks| + 0.25 * bestFuzzy`. -/
theorem claim_C6 : ∀ (q : String) (sm : List (String × List String)),
    _rank_tables_for_question q sm = _rank_tables_for_question q sm ∧
    List.Sorted rankOrder (_rank_tables_for_question q sm) ∧
    (_rank_tables_for_question q sm).Perm
      (sm.map (fun tc => (tc.1, scoreFrac (_normalize_tokens q) tc.1 tc.2))) ∧
    (∀ (t : String) (cols : List String),
      (scoreFrac (_normalize_tokens q) t cols).val = specScore q t cols) := by
  intro q sm
  refine ⟨rfl, ?_, rank_perm q sm, fun t cols => scoreFrac_val q t cols⟩
  have hs : List.Sorted rankRel (_rank_tables_for_question q sm) :=
    List.sorted_insertionSort _ _
  exact List.Pairwise.imp_of_mem
    (fun ha hb h => rankRel_implies_rankOrder (rank_den_pos q sm _ ha) (rank_den_pos q sm _ hb) h)
    hs

/-! ### Claim C7: the selection policy of `_select_tables` -/

theorem claim_C7 :
    (∀ q n fkg b, _select_tables q [] n fkg b = []) ∧
    (∀ q sm n b,
      (_rank_tables_for_question q sm).filter (fun ts => Frac.ltB (0, 1) ts.2) ≠ [] →
      _select_tables q sm n none b =
        (((_rank_tables_for_question q sm).filter
            (fun ts => Frac.ltB (0, 1) ts.2)).map Prod.fst).take n) ∧
    (∀ q sm n b,
      (∀ ts ∈ _rank_tables_for_question q sm, Frac.ltB (0, 1) ts.2 = false) →
      _select_tables q sm n none b = (sortedStrings (sm.map Prod.fst)).take n) ∧
    (∀ q sm n b, (_select_tables q sm n none b).length ≤ n) ∧
    (∀ q sm n b, sm ≠ [] → 1 ≤ n → _select_tables q sm n none b ≠ []) := by
  have hrank_nil : ∀ q, _rank_tables_for_question q [] = [] := fun q => rfl
  refine ⟨?_, ?_, ?_, ?_, ?_⟩
  · intro q n fkg b
    have h2 : sortedStrings ([] : List String) = [] := rfl
    cases fkg with
    | none => simp [_select_tables, hrank_nil, h2]
    | some g =>
      simp [_select_tables, hrank_nil, h2]
      intro _ _ _
      rfl
  · intro q sm n b hne
    by_cases hsel :
        (((_rank_tables_for_question q sm).filter
          (fun ts => Frac.ltB (0, 1) ts.2)).map Prod.fst).take n = []
    · rcases (List.take_eq_nil_iff).1 hsel with hn | hmap
      · subst hn
        simp only [_select_tables]
        rw [if_pos hsel, List.take_zero, List.take_zero]
      · exact absurd (List.map_eq_nil_iff.1 hmap) hne
    · simp only [_select_tables]
      rw [if_neg hsel]
  · intro q sm n b hall
    have hfil : (_rank_tables_for_question q sm).filter (fun ts => Frac.ltB (0, 1) ts.2) = [] :=
      List.filter_eq_nil_iff.2 (fun a ha => by simp [hall a ha])
    have hsel :
        (((_rank_tables_for_question q sm).filter
          (fun ts => Frac.ltB (0, 1) ts.2)).map Prod.fst).take n = [] := by
      rw [hfil]
      simp
    simp only [_select_tables]
    rw [if_pos hsel]
  · intro q sm n b
    by_cases hsel :
        (((_rank_tables_for_question q sm).filter
          (fun ts => Frac.ltB (0, 1) ts.2)).map Prod.fst).take n = []
    · simp only [_select_tables]
      rw [if_pos hsel]
      exact List.length_take_le _ _
    · simp only [_select_tables]
      rw [if_neg hsel]
      exact List.length_take_le _ _
  · intro q sm n b hsm hn
    by_cases hsel :
        (((_rank_tables_for_question q sm).filter
          (fun ts => Frac.ltB (0, 1) ts.2)).map Prod.fst).take n = []
    · simp only [_select_tables]
      rw [if_pos hsel]
      intro hcon
      have hlen := congrArg List.length hcon
      have hperm : (sortedStrings (sm.map Prod.fst)).length = (sm.map Prod.fst).length :=
        (List.perm_insertionSort _ _).length_eq
      rw [List.length_take, hperm, List.length_map, List.length_nil] at hlen
      rcases Nat.min_eq_zero_iff.1 hlen with h | h
      · omega
      · exact hsm (List.length_eq_zero.1 h)
    · simp only [_select_tables]
      rw [if_neg hsel]
      exact hsel

/-- Witness for claim C7 at concrete inputs: a schema where two tables
score positively (truncated to budget 1) and a question with no positive
score (lexicographic fallback). -/
theorem claim_C7_witness :
    _select_tables "b x" [("b", ["z"]), ("a", ["x"])] 1 none false =
      (((_rank_tables_for_question "b x" [("b", ["z"]), ("a", ["x"])]).filter
          (fun ts => Frac.ltB (0, 1) ts.2)).map Prod.fst).take 1 ∧
    _select_tables "qq ww" [("b", ["z"]), ("a", ["x"])] 2 none true =
      (sortedStrings ["b", "a"]).take 2 ∧
    ¬ [("b", ["z"]), ("a", ["x"])] = ([] : List (String × List String)) ∧ 1 ≤ 2 ∧
    _select_tables "qq ww" [("b", ["z"]), ("a", ["x"])] 2 none true ≠ [] :=
  ⟨claim_C7.2.1 "b x" [("b", ["z"]), ("a", ["x"])] 1 false (by decide),
   claim_C7.2.2.1 "qq ww" [("b", ["z"]), ("a", ["x"])] 2 true (by decide),
   by decide, by decide,
   claim_C7.2.2.2.2 "qq ww" [("b", ["z"]), ("a", ["x"])] 2 true (by decide) (by decide)⟩

/-! ### Claim C8: exact token overlap, positive score, and inclusion -/

/-- An exact stemmed-token overlap makes the numerator of the table's
score positive. -/
theorem overlap_score_num_pos {q : String} {t : String} {cols : List String}
    (h : ∃ tok ∈ _normalize_tokens q, tok ∈ tableTokensOf t ∨ tok ∈ colTokensOf cols) :
    0 < (scoreFrac (_normalize_tokens q) t cols).1 := by
  rcases h with ⟨tok, hq, hover⟩
  have hden := fuzzyFold_den_pos (_normalize_tokens q) (tableTokensOf t) (0, 1) Nat.one_pos
  simp only [scoreFrac]
  have hhits : 0 < ((_normalize_tokens q).dedup.filter
        (fun x => x ∈ tableTokensOf t)).length +
      ((_normalize_tokens q).dedup.filter (fun x => x ∈ colTokensOf cols)).length := by
    rcases hover with hov | hov
    · have : tok ∈ (_normalize_tokens q).dedup.filter (fun x => x ∈ tableTokensOf t) :=
        List.mem_filter.2 ⟨List.mem_dedup.2 hq, by simpa using hov⟩
      have := List.length_pos.2 (List.ne_nil_of_mem this)
      omega
    · have : tok ∈ (_normalize_tokens q).dedup.filter (fun x => x ∈ colTokensOf cols) :=
        List.mem_filter.2 ⟨List.mem_dedup.2 hq, by simpa using hov⟩
      have := List.length_pos.2 (List.ne_nil_of_mem this)
      omega
  have h3 : 0 < 3 * ((_normalize_tokens q).dedup.filter
        (fun x => x ∈ tableTokensOf t)).length +
      ((_normalize_tokens q).dedup.filter (fun x => x ∈ colTokensOf cols)).length := by
    omega
  exact Nat.lt_of_lt_of_le (Nat.mul_pos h3 (by omega)) (Nat.le_add_right _ _)

/-- Claim C8 counterexample: table `a` has an exact column-token overlap
with the question `"b x"` (token `x`), yet with `max_tables = 1` the
higher-scoring table `b` fills the budget and `a` is not selected —
truncation can exclude a table with an exact overlap. -/
theorem claim_C8_counterexample :
    (∃ tok ∈ _normalize_tokens "b x", tok ∈ colTokensOf ["x"]) ∧
    ("b", ["z"]) ∈ ([("b", ["z"]), ("a", ["x"])] : List (String × List String)) ∧
    ("a", ["x"]) ∈ ([("b", ["z"]), ("a", ["x"])] : List (String × List String)) ∧
    "a" ∉ _select_tables "b x" [("b", ["z"]), ("a", ["x"])] 1 none false := by
  refine ⟨⟨"x", by decide, by decide⟩, by decide, by decide, by decide⟩

/-- Claim C8 (amended): an exact stemmed-token overlap with a table's
name or column tokens makes that table's ranking score strictly
positive, and `_select_tables` includes the table whenever the budget
covers the whole schema (`max_tables ≥ |schema|`); under truncation to a
smaller budget a higher-scoring table may displace it.  The claim's
scenario holds: for the student/course/enrollment schema and the
question "How many students are there?" with `max_tables = 2`, the
selection is `["student", "enrollment"]` with `student` ranked first. -/
theorem claim_C8_amended :
    (∀ (q t : String) (cols : List String),
      (∃ tok ∈ _normalize_tokens q, tok ∈ tableTokensOf t ∨ tok ∈ colTokensOf cols) →
      (0 : ℚ) < (scoreFrac (_normalize_tokens q) t cols).val) ∧
    (∀ (q : String) (sm : List (String × List String)) (n : Nat) (b : Bool)
        (t : String) (cols : List String), (t, cols) ∈ sm →
      (∃ tok ∈ _normalize_tokens q, tok ∈ tableTokensOf t ∨ tok ∈ colTokensOf cols) →
      sm.length ≤ n → t ∈ _select_tables q sm n none b) ∧
    (_select_tables "How many students are there?"
        [("student", ["id", "name", "age"]), ("course", ["id", "title"]),
         ("enrollment", ["student_id", "course_id"])] 2 none false =
      ["student", "enrollment"]) ∧
    ((_rank_tables_for_question "How many students are there?"
        [("student", ["id", "name", "age"]), ("course", ["id", "title"]),
         ("enrollment", ["student_id", "course_id"])]).head?.map Prod.fst =
      some "student") := by
  refine ⟨?_, ?_, by decide, by decide⟩
  · intro q t cols h
    have hnum := overlap_score_num_pos h
    have hden := scoreFrac_den_pos (_normalize_tokens q) t cols
    unfold Frac.val
    positivity
  · intro q sm n b t cols hmem hover hbudget
    have hnum := overlap_score_num_pos hover
    have hrankmem : (t, scoreFrac (_normalize_tokens q) t cols) ∈
        _rank_tables_for_question q sm := by
      refine (rank_perm q sm).mem_iff.2 ?_
      exact List.mem_map.2 ⟨(t, cols), hmem, rfl⟩
    have hfilmem : (t, scoreFrac (_normalize_tokens q) t cols) ∈
        (_rank_tables_for_question q sm).filter (fun ts => Frac.ltB (0, 1) ts.2) := by
      refine List.mem_filter.2 ⟨hrankmem, ?_⟩
      simp only [Frac.ltB, decide_eq_true_iff]
      simpa using hnum
    have htmem : t ∈ ((_rank_tables_for_question q sm).filter
        (fun ts => Frac.ltB (0, 1) ts.2)).map Prod.fst :=
      List.mem_map.2 ⟨_, hfilmem, rfl⟩
    have hlen : (((_rank_tables_for_question q sm).filter
        (fun ts => Frac.ltB (0, 1) ts.2)).map Prod.fst).length ≤ n := by
      rw [List.length_map]
      calc ((_rank_tables_for_question q sm).filter
            (fun ts => Frac.ltB (0, 1) ts.2)).length
          ≤ (_rank_tables_for_question q sm).length := List.length_filter_le _ _
        _ = sm.length := by
            rw [(rank_perm q sm).length_eq, List.length_map]
        _ ≤ n := hbudget
    have htake : (((_rank_tables_for_question q sm).filter
        (fun ts => Frac.ltB (0, 1) ts.2)).map Prod.fst).take n =
        ((_rank_tables_for_question q sm).filter
          (fun ts => Frac.ltB (0, 1) ts.2)).map Prod.fst :=
      List.take_of_length_le hlen
    have hne : (((_rank_tables_for_question q sm).filter
        (fun ts => Frac.ltB (0, 1) ts.2)).map Prod.fst).take n ≠ [] := by
      rw [htake]
      exact List.ne_nil_of_mem htmem
    simp only [_select_tables]
    rw [if_neg hne, htake]
    exact htmem

/-- Witness for claim C8's amended theorem: with budget 2 the overlapping
table `a` is selected, and its score is strictly positive. -/
theorem claim_C8_amended_witness :
    (0 : ℚ) < (scoreFrac (_normalize_tokens "b x") "a" ["x"]).val ∧
    "a" ∈ _select_tables "b x" [("b", ["z"]), ("a", ["x"])] 2 none false :=
  ⟨claim_C8_amended.1 "b x" "a" ["x"] ⟨"x", by decide, Or.inr (by decide)⟩,
   claim_C8_amended.2.1 "b x" [("b", ["z"]), ("a", ["x"])] 2 false "a" ["x"]
     (by decide) ⟨"x", by decide, Or.inr (by decide)⟩ (by decide)⟩

/-! ### Claim C5: the matching policy of `_best_table_match` / `repl` -/

theorem strReplaceAux_self (t : List Char) :
    ∀ (fuel : Nat) (l : List Char), strReplaceAux t t fuel l = l := by
  intro fuel
  induction fuel with
  | zero => intro l; rfl
  | succ fuel ih =>
    intro l
    unfold strReplaceAux
    by_cases hp : t.isPrefixOf l = true
    · rw [if_pos hp]
      rcases List.isPrefixOf_iff_prefix.1 hp with ⟨r, rfl⟩
      rw [List.drop_left, ih]
    · rw [if_neg hp]
      cases l with
      | nil => rfl
      | cons c cs =>
        show c :: strReplaceAux t t fuel cs = c :: cs
        rw [ih]

/-- Python `s.replace(t, t) = s`. -/
theorem strReplace_self (s t : List Char) : strReplace s t t = s := by
  unfold strReplace
  by_cases h : t = []
  · rw [if_pos h]
  · rw [if_neg h, strReplaceAux_self]

/-- `_best_table_match` in the fuzzy case: both fast paths missed, so
the result is read off the stably sorted scored list. -/
theorem bestTableMatch_fuzzy (tok : List Char) (tables : List (List Char)) (mr : Frac)
    (hexact : tables.find? (fun r => lowerL r = lowerL tok) = none)
    (hplural : (if endsWithL ['s'] (lowerL tok) = true then
        tables.find? (fun r => lowerL r = dropRightL 1 (lowerL tok)) else none) = none) :
    _best_table_match tok tables mr =
      match List.insertionSort descRel
          (tables.map (fun real => (similarityOf (lowerL tok) (lowerL real), real))) with
      | [] => (tok, (0, 1), (0, 1))
      | (bestR, best) :: rest =>
        if Frac.ltB bestR mr = true then
          (tok, bestR, (secondOf rest))
        else
          (best, bestR, (secondOf rest)) := by
  simp only [_best_table_match]
  rw [hexact, hplural]
  rfl

/-- Claim C5: the repairer's matching policy.  (1) an exact
case-insensitive match is accepted with ratio 1.0 and no correction
recorded; (2) a singular-of-plural match is accepted with ratio 0.99;
(3) otherwise the best-similarity table (whose ratio bounds every
candidate's ratio) is accepted iff its ratio is ≥ 0.86 and either ≥ 0.99
or at least 0.03 above the second best, and an unaccepted token is left
unchanged; (4) the claim's scenario:
`repair("SELECT * FROM flights", {flight, airport})` yields
`"SELECT * FROM flight"` with the single correction
`{from: flights, to: flight, ratio: 0.99}`. -/
theorem claim_C5 :
    (∀ (tok : List Char) (tables : List (List Char)) (mr : Frac) (real : List Char),
      tables.find? (fun r => lowerL r = lowerL tok) = some real →
      _best_table_match tok tables mr = (real, (1, 1), (0, 1)) ∧
      ∀ m mg, (replOutcome m tok tables mr mg).2 = none) ∧
    (∀ (tok : List Char) (tables : List (List Char)) (mr : Frac) (real : List Char),
      tables.find? (fun r => lowerL r = lowerL tok) = none →
      endsWithL ['s'] (lowerL tok) = true →
      tables.find? (fun r => lowerL r = dropRightL 1 (lowerL tok)) = some real →
      _best_table_match tok tables mr = (real, (99, 100), (0, 1))) ∧
    (∀ (tok m : List Char) (tables : List (List Char)),
      tables.find? (fun r => lowerL r = lowerL tok) = none →
      (if endsWithL ['s'] (lowerL tok) = true then
        tables.find? (fun r => lowerL r = dropRightL 1 (lowerL tok)) else none) = none →
      (∀ real ∈ tables,
        (similarityOf (lowerL tok) (lowerL real)).val ≤
          (_best_table_match tok tables (86, 100)).2.1.val) ∧
      replOutcome m tok tables (86, 100) (3, 100) =
        (if (43 : ℚ) / 50 ≤ (_best_table_match tok tables (86, 100)).2.1.val ∧
            ((99 : ℚ) / 100 ≤ (_best_table_match tok tables (86, 100)).2.1.val ∨
              (3 : ℚ) / 100 ≤ (_best_table_match tok tables (86, 100)).2.1.val -
                (_best_table_match tok tables (86, 100)).2.2.val)
         then (strReplace m tok (_best_table_match tok tables (86, 100)).1,
               some ⟨String.mk tok, String.mk (_best_table_match tok tables (86, 100)).1,
                     round4 (_best_table_match tok tables (86, 100)).2.1⟩)
         else (m, none))) ∧
    (repair_pred_table_names "SELECT * FROM flights" ["flight", "airport"] =
      ("SELECT * FROM flight", [⟨"flights", "flight", 9900⟩])) := by
  refine ⟨?_, ?_, ?_, by decide⟩
  · intro tok tables mr real hfind
    have hlow : lowerL real = lowerL tok := by
      have := List.find?_some hfind
      simpa using this
    constructor
    · simp only [_best_table_match]
      rw [hfind]
    · intro m mg
      simp only [replOutcome, _best_table_match]
      rw [hfind]
      simp [hlow]
  · intro tok tables mr real hexact hends hplural
    simp only [_best_table_match]
    rw [hexact, if_pos hends, hplural]
  · intro tok m tables hexact hplural
    cases hs : List.insertionSort descRel
        (tables.map (fun real => (similarityOf (lowerL tok) (lowerL real), real))) with
    | nil =>
      have hbm : _best_table_match tok tables (86, 100) = (tok, (0, 1), (0, 1)) := by
        have h0 := bestTableMatch_fuzzy tok tables (86, 100) hexact hplural
        rw [hs] at h0
        exact h0
      have hscored : tables.map
          (fun real => (similarityOf (lowerL tok) (lowerL real), real)) = [] := by
        have hp := List.perm_insertionSort descRel
          (tables.map (fun real => (similarityOf (lowerL tok) (lowerL real), real)))
        rw [hs] at hp
        exact List.perm_nil.1 hp.symm
      have htab : tables = [] := List.map_eq_nil_iff.1 hscored
      constructor
      · intro real hreal
        rw [htab] at hreal
        simp at hreal
      · rw [hbm]
        have hcond : ¬ ((43 : ℚ) / 50 ≤ Frac.val (0, 1) ∧
            ((99 : ℚ) / 100 ≤ Frac.val (0, 1) ∨
              (3 : ℚ) / 100 ≤ Frac.val (0, 1) - Frac.val (0, 1))) := by
          intro hcon
          have h1 := hcon.1
          rw [Frac.val] at h1
          norm_num at h1
        rw [if_neg hcond]
        simp only [replOutcome]
        rw [hbm]
        simp [strReplace_self]
    | cons hd rest =>
      obtain ⟨bestR, best⟩ := hd
      have hmem_best : (bestR, best) ∈ tables.map
          (fun real => (similarityOf (lowerL tok) (lowerL real), real)) := by
        have hx : (bestR, best) ∈ List.insertionSort descRel
            (tables.map (fun real => (similarityOf (lowerL tok) (lowerL real), real))) := by
          rw [hs]
          exact List.mem_cons_self _ _
        exact (List.mem_insertionSort descRel).1 hx
      rcases List.mem_map.1 hmem_best with ⟨realb, hrealb, heqb⟩
      have hrealb_best : realb = best := by simpa using congrArg Prod.snd heqb
      have hbestR : bestR = similarityOf (lowerL tok) (lowerL best) := by
        have h1 : similarityOf (lowerL tok) (lowerL realb) = bestR := by
          simpa using congrArg Prod.fst heqb
        rw [← h1, hrealb_best]
      have hbestTab : best ∈ tables := hrealb_best ▸ hrealb
      have hbden : 0 < bestR.2 := by
        rw [hbestR]
        exact simDen_pos _ _
      have hbne : ¬ lowerL best = lowerL tok := by
        have hall := List.find?_eq_none.1 hexact
        simpa using hall best hbestTab
      have hsden : 0 < (secondOf rest).2 := by
        cases rest with
        | nil => exact Nat.one_pos
        | cons hd2 rs =>
          obtain ⟨r2, b2⟩ := hd2
          have hx : (r2, b2) ∈ List.insertionSort descRel
              (tables.map (fun real => (similarityOf (lowerL tok) (lowerL real), real))) := by
            rw [hs]
            exact List.mem_cons_of_mem _ (List.mem_cons_self _ _)
          rcases List.mem_map.1 ((List.mem_insertionSort descRel).1 hx) with ⟨real2, _, heq2⟩
          have h1 : similarityOf (lowerL tok) (lowerL real2) = r2 := by
            simpa using congrArg Prod.fst heq2
          show 0 < r2.2
          rw [← h1]
          exact simDen_pos _ _
      have hbm : _best_table_match tok tables (86, 100) =
          (if Frac.ltB bestR (86, 100) = true then
            (tok, bestR, (secondOf rest))
          else
            (best, bestR, (secondOf rest))) := by
        have h0 := bestTableMatch_fuzzy tok tables (86, 100) hexact hplural
        rw [hs] at h0
        exact h0
      have hmax : ∀ real ∈ tables,
          (similarityOf (lowerL tok) (lowerL real)).val ≤ bestR.val := by
        intro real hreal
        have hmemr : (similarityOf (lowerL tok) (lowerL real), real) ∈
            tables.map (fun r => (similarityOf (lowerL tok) (lowerL r), r)) :=
          List.mem_map.2 ⟨real, hreal, rfl⟩
        have hmems : (similarityOf (lowerL tok) (lowerL real), real) ∈
            (bestR, best) :: rest := by
          rw [← hs]
          exact (List.mem_insertionSort descRel).2 hmemr
        have hsimden := simDen_pos (lowerL tok) (lowerL real)
        rcases List.mem_cons.1 hmems with heq | hmems'
        · have h1 : similarityOf (lowerL tok) (lowerL real) = bestR := by
            simpa using congrArg Prod.fst heq
          rw [h1]
        · have hsorted := List.sorted_insertionSort descRel
            (tables.map (fun r => (similarityOf (lowerL tok) (lowerL r), r)))
          rw [hs] at hsorted
          have hrel := (List.pairwise_cons.1 hsorted).1 _ hmems'
          unfold descRel at hrel
          rw [Frac.withPosDen_eq hsimden, Frac.withPosDen_eq hbden] at hrel
          exact (Frac.leB_iff_val hsimden hbden).1 hrel
      by_cases hlt : Frac.ltB bestR (86, 100) = true
      · have hbm2 : _best_table_match tok tables (86, 100) =
            (tok, bestR, (secondOf rest)) := by
          rw [hbm, if_pos hlt]
        have hlt' : bestR.val < 43 / 50 := by
          have h2 := (Frac.ltB_iff_val hbden
            (by norm_num : 0 < ((86 : Nat), (100 : Nat)).2)).1 hlt
          have hv : Frac.val (86, 100) = 43 / 50 := by
            rw [Frac.val]
            norm_num
          rwa [hv] at h2
        refine ⟨?_, ?_⟩
        · intro real hreal
          rw [hbm2]
          exact hmax real hreal
        · rw [hbm2]
          have hcond : ¬ ((43 : ℚ) / 50 ≤ bestR.val ∧
              ((99 : ℚ) / 100 ≤ bestR.val ∨ (3 : ℚ) / 100 ≤ bestR.val -
                (secondOf rest).val)) := by
            intro hcon
            linarith [hcon.1]
          rw [if_neg hcond]
          simp only [replOutcome]
          rw [hbm2]
          simp [strReplace_self]
      · have hbm2 : _best_table_match tok tables (86, 100) =
            (best, bestR, (secondOf rest)) := by
          rw [hbm, if_neg hlt]
        have hge : (43 : ℚ) / 50 ≤ bestR.val := by
          have h2 : ¬ (bestR.val < Frac.val (86, 100)) := fun hcon =>
            hlt ((Frac.ltB_iff_val hbden (by norm_num : 0 < ((86 : Nat), (100 : Nat)).2)).2 hcon)
          have hv : Frac.val (86, 100) = 43 / 50 := by
            rw [Frac.val]
            norm_num
          rw [hv] at h2
          exact not_lt.1 h2
        refine ⟨?_, ?_⟩
        · intro real hreal
          rw [hbm2]
          exact hmax real hreal
        · rw [hbm2]
          simp only [replOutcome]
          rw [hbm2]
          by_cases hg : (Frac.subLtB bestR
            (secondOf rest) (3, 100) = true ∧
            Frac.ltB bestR (99, 100) = true)
          · have h99 : bestR.val < 99 / 100 := by
              have h3 := (Frac.ltB_iff_val hbden
                (by norm_num : 0 < ((99 : Nat), (100 : Nat)).2)).1 hg.2
              have hv : Frac.val (99, 100) = 99 / 100 := by
                rw [Frac.val]
                norm_num
              rwa [hv] at h3
            have hsub : bestR.val - (secondOf rest).val < 3 / 100 := by
              have h3 := (Frac.subLtB_iff_val hbden hsden
                (by norm_num : 0 < ((3 : Nat), (100 : Nat)).2)).1 hg.1
              have hv : Frac.val (3, 100) = 3 / 100 := by
                rw [Frac.val]
                norm_num
              rwa [hv] at h3
            have hcond : ¬ ((43 : ℚ) / 50 ≤ bestR.val ∧
                ((99 : ℚ) / 100 ≤ bestR.val ∨ (3 : ℚ) / 100 ≤ bestR.val -
                  (secondOf rest).val)) := by
              intro hcon
              rcases hcon.2 with h | h
              · linarith
              · linarith
            rw [if_neg hcond, if_pos (show lowerL best ≠ lowerL tok from hbne), if_pos hg]
          · have hcond : ((43 : ℚ) / 50 ≤ bestR.val ∧
                ((99 : ℚ) / 100 ≤ bestR.val ∨ (3 : ℚ) / 100 ≤ bestR.val -
                  (secondOf rest).val)) := by
              refine ⟨hge, ?_⟩
              rcases not_and_or.1 hg with hn | hn
              · right
                have hns : ¬ (bestR.val - (secondOf rest).val < 3 / 100) := by
                  intro hcon
                  refine hn ((Frac.subLtB_iff_val hbden hsden
                    (by norm_num : 0 < ((3 : Nat), (100 : Nat)).2)).2 ?_)
                  have hv : Frac.val (3, 100) = 3 / 100 := by
                    rw [Frac.val]
                    norm_num
                  rw [hv]
                  exact hcon
                exact not_lt.1 hns
              · left
                have hns : ¬ (bestR.val < 99 / 100) := by
                  intro hcon
                  refine hn ((Frac.ltB_iff_val hbden
                    (by norm_num : 0 < ((99 : Nat), (100 : Nat)).2)).2 ?_)
                  have hv : Frac.val (99, 100) = 99 / 100 := by
                    rw [Frac.val]
                    norm_num
                  rw [hv]
                  exact hcon
                exact not_lt.1 hns
            rw [if_pos hcond, if_pos (show lowerL best ≠ lowerL tok from hbne), if_neg hg]

/-- Witness for claim C5 at concrete inputs: an exact case-insensitive
match, a singular-of-plural match, and a fuzzy-case bound. -/
theorem claim_C5_witness :
    _best_table_match "FLIGHT".data ["flight".data, "airport".data] (86, 100) =
      ("flight".data, (1, 1), (0, 1)) ∧
    _best_table_match "flights".data ["flight".data, "airport".data] (86, 100) =
      ("flight".data, (99, 100), (0, 1)) ∧
    (similarityOf (lowerL "zebr".data) (lowerL "zebra".data)).val ≤
      (_best_table_match "zebr".data ["zebra".data, "y join".data] (86, 100)).2.1.val :=
  ⟨(claim_C5.1 "FLIGHT".data ["flight".data, "airport".data] (86, 100)
      "flight".data (by decide)).1,
   claim_C5.2.1 "flights".data ["flight".data, "airport".data] (86, 100)
     "flight".data (by decide) (by decide) (by decide),
   (claim_C5.2.2.1 "zebr".data "join zebr".data ["zebra".data, "y join".data]
      (by decide) (by decide)).1 "zebra".data (by decide)⟩

/-! ### Claims C3 and C4: frame and idempotence properties of the repairer -/

theorem stripPrefixCI_append :
    ∀ (kw l d rest : List Char), stripPrefixCI kw l = some (d, rest) →
      d ++ rest = l ∧ d.length = kw.length := by
  intro kw
  induction kw with
  | nil =>
    intro l d rest h
    simp only [stripPrefixCI] at h
    cases h
    exact ⟨rfl, rfl⟩
  | cons k ks ih =>
    intro l d rest h
    cases l with
    | nil => simp [stripPrefixCI] at h
    | cons c cs =>
      simp only [stripPrefixCI] at h
      by_cases hc : asciiLower c = k
      · rw [if_pos hc] at h
        cases h2 : stripPrefixCI ks cs with
        | none => rw [h2] at h; simp at h
        | some p =>
          obtain ⟨d', r'⟩ := p
          rw [h2] at h
          simp only [Option.some.injEq, Prod.mk.injEq] at h
          obtain ⟨hd, hr⟩ := h
          rcases ih cs d' r' h2 with ⟨ha, hl⟩
          subst hd hr
          constructor
          · simp [ha]
          · simp [hl]
      · rw [if_neg hc] at h
        simp at h

theorem takeTok_append :
    ∀ (l tok rest : List Char), takeTok l = some (tok, rest) →
      tok ++ rest = l ∧ tok ≠ [] := by
  intro l tok rest h
  cases l with
  | nil => simp [takeTok] at h
  | cons c cs =>
    simp only [takeTok] at h
    by_cases hc : isTokStart c = true
    · rw [if_pos hc] at h
      simp only [Option.some.injEq, Prod.mk.injEq] at h
      obtain ⟨ht, hr⟩ := h
      subst ht hr
      constructor
      · simp [List.takeWhile_append_dropWhile]
      · simp
    · rw [if_neg hc] at h
      simp at h

theorem matchKwCI_append :
    ∀ (l kw rest : List Char), matchKwCI l = some (kw, rest) →
      kw ++ rest = l ∧ kw ≠ [] := by
  intro l kw rest h
  simp only [matchKwCI] at h
  cases h1 : stripPrefixCI "from".data l with
  | some p =>
    rw [h1] at h
    cases h
    rcases stripPrefixCI_append _ _ _ _ h1 with ⟨ha, hl⟩
    exact ⟨ha, by intro hcon; rw [hcon] at hl; simp at hl⟩
  | none =>
  rw [h1] at h
  cases h2 : stripPrefixCI "join".data l with
  | some p =>
    rw [h2] at h
    cases h
    rcases stripPrefixCI_append _ _ _ _ h2 with ⟨ha, hl⟩
    exact ⟨ha, by intro hcon; rw [hcon] at hl; simp at hl⟩
  | none =>
  rw [h2] at h
  cases h3 : stripPrefixCI "update".data l with
  | some p =>
    rw [h3] at h
    cases h
    rcases stripPrefixCI_append _ _ _ _ h3 with ⟨ha, hl⟩
    exact ⟨ha, by intro hcon; rw [hcon] at hl; simp at hl⟩
  | none =>
  rw [h3] at h
  cases h4 : stripPrefixCI "into".data l with
  | some p =>
    rw [h4] at h
    cases h
    rcases stripPrefixCI_append _ _ _ _ h4 with ⟨ha, hl⟩
    exact ⟨ha, by intro hcon; rw [hcon] at hl; simp at hl⟩
  | none =>
  rw [h4] at h
  cases h5 : stripPrefixCI "delete".data l with
  | none => rw [h5] at h; simp at h
  | some p =>
    obtain ⟨d, r1⟩ := p
    rw [h5] at h
    simp only at h
    by_cases hsp : r1.takeWhile isPySpace = []
    · rw [if_pos hsp] at h
      simp at h
    · rw [if_neg hsp] at h
      cases h6 : stripPrefixCI "from".data (r1.dropWhile isPySpace) with
      | none => rw [h6] at h; simp at h
      | some p2 =>
        obtain ⟨f, r3⟩ := p2
        rw [h6] at h
        simp only [Option.some.injEq, Prod.mk.injEq] at h
        obtain ⟨hkw, hr⟩ := h
        subst hkw hr
        rcases stripPrefixCI_append _ _ _ _ h5 with ⟨ha5, hl5⟩
        rcases stripPrefixCI_append _ _ _ _ h6 with ⟨ha6, hl6⟩
        constructor
        · rw [List.append_assoc, List.append_assoc, ha6,
            List.takeWhile_append_dropWhile, ha5]
        · intro hcon
          rw [List.append_eq_nil] at hcon
          rcases hcon with ⟨hd, _⟩
          rcases List.append_eq_nil.1 hd with ⟨hd2, _⟩
          rw [hd2] at hl5
          simp at hl5

theorem tryMatch_append :
    ∀ (prev : Option Char) (l m tok rest : List Char),
      tryMatch prev l = some (m, tok, rest) → m ++ rest = l ∧ m ≠ [] := by
  intro prev l m tok rest h
  simp only [tryMatch] at h
  split at h
  · simp at h
  · split at h
    · simp at h
    · next kw r1 hk =>
      rcases matchKwCI_append _ _ _ hk with ⟨hkl, hkne⟩
      split at h
      · simp at h
      · split at h
        · simp at h
        · next c r3 hr2 =>
          have hr1 : r1.takeWhile isPySpace ++ (c :: r3) = r1 := by
            rw [← hr2]
            exact List.takeWhile_append_dropWhile isPySpace r1
          split at h
          · split at h
            · next tok' r4 ht =>
              rcases takeTok_append _ _ _ ht with ⟨hta, htne⟩
              split at h
              · next c2 r5 =>
                split at h
                · simp only [Option.some.injEq, Prod.mk.injEq] at h
                  obtain ⟨hm, _, hrest⟩ := h
                  subst hm; subst hrest
                  refine ⟨?_, by simp [hkne]⟩
                  simp only [List.append_assoc, List.cons_append, List.singleton_append, List.nil_append,
                    List.append_nil] at hta ⊢
                  rw [hta, hr1]
                  exact hkl
                · simp only [Option.some.injEq, Prod.mk.injEq] at h
                  obtain ⟨hm, _, hrest⟩ := h
                  subst hm; subst hrest
                  refine ⟨?_, by simp [hkne]⟩
                  simp only [List.append_assoc, List.cons_append, List.singleton_append, List.nil_append,
                    List.append_nil] at hta ⊢
                  rw [hta, hr1]
                  exact hkl
              · simp only [Option.some.injEq, Prod.mk.injEq] at h
                obtain ⟨hm, _, hrest⟩ := h
                subst hm; subst hrest
                refine ⟨?_, by simp [hkne]⟩
                simp only [List.append_assoc, List.cons_append, List.singleton_append, List.nil_append,
                  List.append_nil] at hta ⊢
                rw [hta, hr1]
                exact hkl
            · simp at h
          · split at h
            · next tok' r4 ht =>
              rcases takeTok_append _ _ _ ht with ⟨hta, htne⟩
              split at h
              · next c2 r5 =>
                split at h
                · simp only [Option.some.injEq, Prod.mk.injEq] at h
                  obtain ⟨hm, _, hrest⟩ := h
                  subst hm; subst hrest
                  refine ⟨?_, by simp [hkne]⟩
                  simp only [List.append_assoc, List.cons_append, List.singleton_append, List.nil_append,
                    List.append_nil] at hta ⊢
                  rw [hta, hr1]
                  exact hkl
                · simp only [Option.some.injEq, Prod.mk.injEq] at h
                  obtain ⟨hm, _, hrest⟩ := h
                  subst hm; subst hrest
                  refine ⟨?_, by simp [hkne]⟩
                  simp only [List.append_assoc, List.cons_append, List.singleton_append, List.nil_append,
                    List.append_nil] at hta ⊢
                  rw [hta, hr1]
                  exact hkl
              · simp only [Option.some.injEq, Prod.mk.injEq] at h
                obtain ⟨hm, _, hrest⟩ := h
                subst hm; subst hrest
                refine ⟨?_, by simp [hkne]⟩
                simp only [List.append_assoc, List.cons_append, List.singleton_append, List.nil_append,
                  List.append_nil] at hta ⊢
                rw [hta, hr1]
                exact hkl
            · simp at h

theorem tryMatch_nil : ∀ prev : Option Char, tryMatch prev [] = none := by
  intro prev
  simp only [tryMatch]
  split
  · rfl
  · rfl

theorem findClose_append (q : Char) :
    ∀ (n : Nat) (cs body rest : List Char), cs.length ≤ n →
      findClose q cs = some (body, rest) → body ++ rest = cs := by
  intro n
  induction n with
  | zero =>
    intro cs body rest hn h
    have : cs = [] := List.eq_nil_of_length_eq_zero (Nat.le_zero.1 hn)
    subst this
    simp [findClose] at h
  | succ n ih =>
    intro cs body rest hn h
    cases cs with
    | nil => simp [findClose] at h
    | cons c cs2 =>
      rw [findClose.eq_def] at h
      simp only at h
      split at h
      · cases cs2 with
        | nil =>
          simp only [Option.some.injEq, Prod.mk.injEq] at h
          obtain ⟨hb, hr⟩ := h
          subst hb; subst hr
          rfl
        | cons c2 cs3 =>
          simp only at h
          split at h
          · cases hf : findClose q cs3 with
            | some p =>
              obtain ⟨b2, r2⟩ := p
              rw [hf] at h
              simp only [Option.some.injEq, Prod.mk.injEq] at h
              obtain ⟨hb, hr⟩ := h
              subst hb; subst hr
              have hlen : cs3.length ≤ n := by
                simp only [List.length_cons] at hn
                omega
              have := ih cs3 b2 r2 hlen hf
              simp [this]
            | none =>
              rw [hf] at h
              simp only [Option.some.injEq, Prod.mk.injEq] at h
              obtain ⟨hb, hr⟩ := h
              subst hb; subst hr
              rfl
          · simp only [Option.some.injEq, Prod.mk.injEq] at h
            obtain ⟨hb, hr⟩ := h
            subst hb; subst hr
            rfl
      · cases hf : findClose q cs2 with
        | some p =>
          obtain ⟨b2, r2⟩ := p
          rw [hf] at h
          simp only [Option.some.injEq, Prod.mk.injEq] at h
          obtain ⟨hb, hr⟩ := h
          subst hb; subst hr
          have hlen : cs2.length ≤ n := by
            simp only [List.length_cons] at hn
            omega
          have := ih cs2 b2 r2 hlen hf
          simp [this]
        | none => rw [hf] at h; simp at h

theorem quoteSplitAux_flatten :
    ∀ (fuel : Nat) (acc l : List Char), l.length ≤ fuel →
      (quoteSplitAux fuel acc l).flatten = acc.reverse ++ l := by
  intro fuel
  induction fuel with
  | zero =>
    intro acc l hl
    have : l = [] := List.eq_nil_of_length_eq_zero (Nat.le_zero.1 hl)
    subst this
    simp [quoteSplitAux]
  | succ fuel ih =>
    intro acc l hl
    cases l with
    | nil => simp [quoteSplitAux]
    | cons c cs =>
      simp only [quoteSplitAux]
      have hcs : cs.length ≤ fuel := by
        simp only [List.length_cons] at hl
        omega
      split
      · cases hf : findClose c cs with
        | some p =>
          obtain ⟨body, rest⟩ := p
          have hbr : body ++ rest = cs :=
            findClose_append c cs.length cs body rest le_rfl hf
          have hrest : rest.length ≤ fuel := by
            have : body.length + rest.length = cs.length := by
              rw [← List.length_append, hbr]
            omega
          simp only [List.flatten_cons]
          rw [ih [] rest hrest]
          simp [← hbr]
        | none =>
          rw [ih (c :: acc) cs hcs]
          simp
      · rw [ih (c :: acc) cs hcs]
        simp

theorem subChunkAux_noMatch (T : List (List Char)) (mr mg : Frac) :
    ∀ (fuel : Nat) (prev : Option Char) (l : List Char),
      noTablePosMatch prev l = true →
      subChunkAux T mr mg fuel prev l = (l, []) := by
  intro fuel
  induction fuel with
  | zero =>
    intro prev l _
    rfl
  | succ fuel ih =>
    intro prev l hno
    cases l with
    | nil =>
      simp only [subChunkAux, tryMatch_nil]
    | cons c cs =>
      simp only [noTablePosMatch, Bool.and_eq_true, Option.isNone_iff_eq_none] at hno
      obtain ⟨hnone, htail⟩ := hno
      simp only [subChunkAux, hnone]
      rw [ih (some c) cs htail]

theorem subChunkAux_id (T : List (List Char)) (mr mg : Frac) :
    ∀ (fuel : Nat) (prev : Option Char) (l : List Char),
      (∀ tok ∈ matchedToksAux fuel prev l,
        T.find? (fun r => lowerL r = lowerL tok) = some tok) →
      subChunkAux T mr mg fuel prev l = (l, []) := by
  intro fuel
  induction fuel with
  | zero =>
    intro prev l _
    rfl
  | succ fuel ih =>
    intro prev l hcond
    cases htry : tryMatch prev l with
    | some p =>
      obtain ⟨m, tok, rest⟩ := p
      have hmem : tok ∈ matchedToksAux (fuel + 1) prev l := by
        simp only [matchedToksAux, htry]
        exact List.mem_cons_self _ _
      have hfind : T.find? (fun r => lowerL r = lowerL tok) = some tok :=
        hcond tok hmem
      have hro : replOutcome m tok T mr mg = (m, none) := by
        simp only [replOutcome, _best_table_match, hfind]
        rw [if_neg (by simp)]
        rw [strReplace_self]
      have htail : ∀ t ∈ matchedToksAux fuel m.getLast? rest,
          T.find? (fun r => lowerL r = lowerL t) = some t := by
        intro t ht
        refine hcond t ?_
        simp only [matchedToksAux, htry]
        exact List.mem_cons_of_mem _ ht
      rcases tryMatch_append prev l m tok rest htry with ⟨hml, _⟩
      simp only [subChunkAux, htry, hro, ih m.getLast? rest htail]
      exact Prod.ext hml rfl
    | none =>
      cases l with
      | nil => simp only [subChunkAux, htry]
      | cons c cs =>
        have htail : ∀ t ∈ matchedToksAux fuel (some c) cs,
            T.find? (fun r => lowerL r = lowerL t) = some t := by
          intro t ht
          refine hcond t ?_
          simp only [matchedToksAux, htry]
          exact ht
        simp only [subChunkAux, htry, ih (some c) cs htail]

theorem subChunk_noMatch (T : List (List Char)) (mr mg : Frac) (u : List Char) :
    noTablePosMatch none u = true → subChunk T mr mg u = (u, []) :=
  fun h => subChunkAux_noMatch T mr mg u.length none u h

theorem subChunk_id (T : List (List Char)) (mr mg : Frac) (u : List Char) :
    (∀ tok ∈ matchedToks u, T.find? (fun r => lowerL r = lowerL tok) = some tok) →
    subChunk T mr mg u = (u, []) :=
  fun h => subChunkAux_id T mr mg u.length none u h

theorem repairParts_frame (T : List (List Char)) (mr mg : Frac) :
    ∀ (n : Nat) (parts : List (List Char)), parts.length ≤ n →
      ((repairParts T mr mg parts).1.length = parts.length ∧
       ∀ i, i % 2 = 1 →
         (repairParts T mr mg parts).1.getD i [] = parts.getD i []) := by
  intro n
  induction n with
  | zero =>
    intro parts hn
    have : parts = [] := List.eq_nil_of_length_eq_zero (Nat.le_zero.1 hn)
    subst this
    exact ⟨rfl, fun i _ => rfl⟩
  | succ n ih =>
    intro parts hn
    match parts with
    | [] => exact ⟨rfl, fun i _ => rfl⟩
    | [u] =>
      rcases hu : subChunk T mr mg u with ⟨o, ch⟩
      constructor
      · simp [repairParts, hu]
      · intro i hi
        have hipos : 1 ≤ i := by omega
        simp only [repairParts, hu]
        match i, hipos with
        | j + 1, _ => simp
    | u :: q :: rest =>
      rcases hu : subChunk T mr mg u with ⟨o, ch⟩
      rcases hr : repairParts T mr mg rest with ⟨os, chs⟩
      have hlen : rest.length ≤ n := by
        simp only [List.length_cons] at hn
        omega
      have hih := ih rest hlen
      rw [hr] at hih
      obtain ⟨hih1, hih2⟩ := hih
      constructor
      · simp only [repairParts, hu, hr, List.length_cons, hih1]
      · intro i hi
        simp only [repairParts, hu, hr]
        match i, hi with
        | 1, _ => rfl
        | j + 2, hj =>
          have hj2 : j % 2 = 1 := by omega
          simpa using hih2 j hj2

theorem repairParts_id (T : List (List Char)) (mr mg : Frac) :
    ∀ (n : Nat) (parts : List (List Char)), parts.length ≤ n →
      (∀ u ∈ evenParts parts, ∀ tok ∈ matchedToks u,
        T.find? (fun r => lowerL r = lowerL tok) = some tok) →
      repairParts T mr mg parts = (parts, []) := by
  intro n
  induction n with
  | zero =>
    intro parts hn _
    have : parts = [] := List.eq_nil_of_length_eq_zero (Nat.le_zero.1 hn)
    subst this
    rfl
  | succ n ih =>
    intro parts hn hcond
    match parts with
    | [] => rfl
    | [u] =>
      have hcu : ∀ tok ∈ matchedToks u,
          T.find? (fun r => lowerL r = lowerL tok) = some tok := by
        intro tok htok
        exact hcond u (by simp [evenParts]) tok htok
      simp only [repairParts, subChunk_id T mr mg u hcu]
    | u :: q :: rest =>
      have hcu : ∀ tok ∈ matchedToks u,
          T.find? (fun r => lowerL r = lowerL tok) = some tok := by
        intro tok htok
        exact hcond u (by simp [evenParts]) tok htok
      have hcrest : ∀ v ∈ evenParts rest, ∀ tok ∈ matchedToks v,
          T.find? (fun r => lowerL r = lowerL tok) = some tok := by
        intro v hv tok htok
        refine hcond v ?_ tok htok
        simp only [evenParts, List.mem_cons]
        exact Or.inr hv
      have hlen : rest.length ≤ n := by
        simp only [List.length_cons] at hn
        omega
      simp only [repairParts, subChunk_id T mr mg u hcu, ih rest hlen hcrest,
        List.nil_append]

/-- Claim C3 counterexample: in `SELECT 'x join in` the only quote
character of the whole string opens an unterminated literal, yet
`repair_pred_table_names` with `tables = ["IN"]` rewrites the text after
it (to `SELECT 'x joIN IN`, recording no change), refuting "no
table-position substitution occurring inside it". -/
theorem claim_C3_counterexample :
    sqlC3in.data.count singleQuoteChar = 1 ∧
    sqlC3in.data.count doubleQuoteChar = 0 ∧
    repair_pred_table_names sqlC3in ["IN"] = (sqlC3out, []) ∧
    sqlC3out ≠ sqlC3in := by
  decide

/-- Claim C3 (amended): the quote split is total and loses no text (an
unterminated literal simply stays in the final unquoted span); the
repairer keeps every odd (quoted) span verbatim and preserves the span
count; an unquoted span with no table-position match is returned
unchanged; on the spec's example `SELECT 'flights' FROM flgihts` with
`tables = ["flights"]` nothing changes (the fuzzy ratio 6/7 is below
0.86), and on `SELECT 'flights' FROM flights` with `tables = ["flight"]`
only the unquoted `flights` is corrected while the quoted `'flights'` is
untouched. -/
theorem claim_C3_amended :
    (∀ l : List Char, (quoteSplitParts l).flatten = l) ∧
    (∀ (T : List (List Char)) (mr mg : Frac) (parts : List (List Char)),
      (repairParts T mr mg parts).1.length = parts.length ∧
      ∀ i, i % 2 = 1 →
        (repairParts T mr mg parts).1.getD i [] = parts.getD i []) ∧
    (∀ (T : List (List Char)) (mr mg : Frac) (u : List Char),
      noTablePosMatch none u = true → subChunk T mr mg u = (u, [])) ∧
    repair_pred_table_names sqlFlgihts ["flights"] = (sqlFlgihts, []) ∧
    repair_pred_table_names sqlFlights ["flight"] =
      (sqlFlightRep, [⟨"flights", "flight", 9900⟩]) := by
  refine ⟨?_, ?_, subChunk_noMatch, by decide, by decide⟩
  · intro l
    exact quoteSplitAux_flatten l.length [] l le_rfl
  · intro T mr mg parts
    exact repairParts_frame T mr mg parts.length parts le_rfl

/-- Witness for the conditional clauses of the amended C3: the middle
(quoted) span of a three-span split survives the repairer verbatim, and
a keyword-free span is returned unchanged. -/
theorem claim_C3_amended_witness :
    (repairParts ["t".data] (86, 100) (3, 100)
        ["ab".data, "qq".data, "cd".data]).1.getD 1 [] =
      (["ab".data, "qq".data, "cd".data]).getD 1 [] ∧
    noTablePosMatch none "hello".data = true ∧
    subChunk ["t".data] (86, 100) (3, 100) "hello".data = ("hello".data, []) :=
  ⟨(claim_C3_amended.2.1 ["t".data] (86, 100) (3, 100)
      ["ab".data, "qq".data, "cd".data]).2 1 (by decide),
   by decide,
   claim_C3_amended.2.2.1 ["t".data] (86, 100) (3, 100) "hello".data (by decide)⟩

/-- Claim C4 counterexample: the repairer is not idempotent — on
`x from yjoin zebr` with `tables = ["y join", "zebra"]` the first pass
rewrites `yjoin` to `y join`, creating a fresh JOIN site, and a second
pass then also rewrites `zebr`; and already-correct SQL is not always
returned unchanged — `SELECT * FROM FOO` with `tables = ["foo", "FOO"]`
contains the actual table name `FOO`, yet the repairer rewrites it to
`foo` (while still reporting no changes). -/
theorem claim_C4_counterexample :
    ((repair_pred_table_names
        (repair_pred_table_names "x from yjoin zebr" ["y join", "zebra"]).1
        ["y join", "zebra"]).1 ≠
      (repair_pred_table_names "x from yjoin zebr" ["y join", "zebra"]).1) ∧
    ("FOO" ∈ ["foo", "FOO"] ∧
      repair_pred_table_names "SELECT * FROM FOO" ["foo", "FOO"] =
        ("SELECT * FROM foo", [])) := by
  decide

/-- Claim C4 (amended): whenever every token the table-position scan
matches in the unquoted spans is literally the first case-insensitive
hit in the table list (in particular its exact capitalization), the
repairer returns the SQL unchanged with an empty correction list. -/
theorem claim_C4_amended :
    ∀ (sql : String) (T : List String) (mr mg : Frac),
      (∀ u ∈ evenParts (quoteSplitParts sql.data), ∀ tok ∈ matchedToks u,
        (T.map (fun s => s.data)).find? (fun r => lowerL r = lowerL tok) =
          some tok) →
      repair_pred_table_names sql T mr mg = (sql, []) := by
  intro sql T mr mg hcond
  have hrp : repairParts (T.map (fun s => s.data)) mr mg
      (quoteSplitParts sql.data) = (quoteSplitParts sql.data, []) :=
    repairParts_id (T.map (fun s => s.data)) mr mg
      (quoteSplitParts sql.data).length (quoteSplitParts sql.data) le_rfl hcond
  have hfl : (quoteSplitParts sql.data).flatten = sql.data :=
    quoteSplitAux_flatten sql.data.length [] sql.data le_rfl
  simp only [repair_pred_table_names, hrp, hfl]
  split
  · rfl
  · rfl

/-- Witness for the amended C4: `select * from FOO` over `["FOO",
"foo"]` is returned unchanged with no corrections. -/
theorem claim_C4_amended_witness :
    repair_pred_table_names "select * from FOO" ["FOO", "foo"] =
      ("select * from FOO", []) :=
  claim_C4_amended "select * from FOO" ["FOO", "foo"] (86, 100) (3, 100)
    (by decide)
